import Mathlib

/-
Verification development for the confluence-mirror repository.

The embedding covers:
- the ADF tree model (packages/core/src/types, as used by the processors);
- the media processor (packages/core/src/processors/media-processor.ts):
  extractMediaMappings, enrichMediaNodes, processADFWithMedia;
- the link processor (link-processor module): extractConfluenceUrls,
  isConfluenceUrl, fetchPageTitles, enrichAdfWithLinkData, processADFWithLinks;
- ConfluenceClient.extractPageIdFromUrl (confluence-client module);
- UrlTransformer (url-transformer module): shouldTransform, toLocalUrl,
  toConfluenceUrl;
- the heading anchor-id derivation of renderADF's heading case
  (demo/src/components/confluence/AdfRenderer.tsx).

JavaScript builtins used by that code (regular expression matching, the WHATWG
URL constructor, Set/Map/object-key ordering) are modelled by Lean functions
whose doc comments state exactly which builtin behaviour they reproduce.
Strings are treated as their character sequences; all inputs relevant to the
claims are ASCII, where the models agree with the JS builtins.
-/

/-- Association-list update modelling JavaScript object/Map key assignment
(`{...obj, k: v}` and `Map.set`): if the key is present, its value is replaced
in place (key order preserved); otherwise the pair is appended. -/
def upsertKV {α : Type} : List (String × α) → String → α → List (String × α)
  | [], k, v => [(k, v)]
  | (k0, v0) :: t, k, v =>
    if k0 = k then (k0, v) :: t else (k0, v0) :: upsertKV t k v

/-- Association-list lookup modelling JavaScript property access `obj[k]` /
`Map.get(k)` (first matching key; keys built via `upsertKV` are unique). -/
def lookupKV {α : Type} : List (String × α) → String → Option α
  | [], _ => none
  | (k0, v0) :: t, k => if k0 = k then some v0 else lookupKV t k

/-- JavaScript string truthiness for an optional attribute value:
`undefined` and `""` are falsy, every other string is truthy. -/
def truthyS : Option String → Bool
  | none => false
  | some s => !(s == "")

/-- Inline mark: a tagged annotation with its own attribute record
(`{ type, attrs }`), as in the ADF `marks` arrays. -/
structure ADFMark where
  type : String
  attrs : List (String × String)
deriving DecidableEq, Repr

/-- ADF node (`ADFNode` of packages/core/src/types): a `type` discriminator,
an open `attrs` mapping (modelled as an ordered association list of string
attributes), an optional `marks` array (absent modelled as `[]`, which the
processors treat identically), optional `text`, and an optional ordered
`content` child sequence. -/
inductive ADFNode where
  | node (type : String) (attrs : List (String × String)) (marks : List ADFMark)
      (text : Option String) (content : Option (List ADFNode))

def ADFNode.typeOf : ADFNode → String
  | .node t _ _ _ _ => t

def ADFNode.attrsOf : ADFNode → List (String × String)
  | .node _ a _ _ _ => a

def ADFNode.marksOf : ADFNode → List ADFMark
  | .node _ _ m _ _ => m

def ADFNode.textOf : ADFNode → Option String
  | .node _ _ _ tx _ => tx

def ADFNode.contentOf : ADFNode → Option (List ADFNode)
  | .node _ _ _ _ c => c

/-- JavaScript `String.startsWith`: prefix test on the character sequence. -/
def jsStartsWith (s p : String) : Bool :=
  p.data.isPrefixOf s.data

/-- JavaScript `String.endsWith`: suffix test on the character sequence. -/
def jsEndsWith (s p : String) : Bool :=
  p.data.reverse.isPrefixOf s.data.reverse

/-- Characters JavaScript's `\d` regex class matches (ASCII decimal digits). -/
def jsDigit (c : Char) : Bool := c.isDigit

/-- Head test for regex pattern 1 of `ConfluenceClient.extractPageIdFromUrl`:
does the character list start with the literal `/pages/`? -/
def startsWithPages (l : List Char) : Bool :=
  match l with
  | a :: b :: c :: d :: e :: f :: g :: _ =>
    a == '/' && b == 'p' && c == 'a' && d == 'g' && e == 'e' && f == 's' && g == '/'
  | _ => false

/-- Attempt of regex `\/pages\/(\d+)(?:\/|$)` at the current position: the
literal `/pages/`, then a maximal nonempty digit run, which must be followed
by `/` or the end of the string (a digit run followed by any other character
cannot match, since every shorter digit split is followed by a digit). -/
def p1MatchAt (l : List Char) : Option (List Char) :=
  if startsWithPages l then
    let rest := l.drop 7
    let ds := rest.takeWhile jsDigit
    if ds = [] then none
    else
      match rest.dropWhile jsDigit with
      | [] => some ds
      | '/' :: _ => some ds
      | _ => none
  else none

/-- Leftmost match of regex pattern 1 (`url.match` scans positions left to
right, advancing one character after a failed attempt). -/
def p1First : List Char → Option (List Char)
  | [] => none
  | c :: t =>
    match p1MatchAt (c :: t) with
    | some ds => some ds
    | none => p1First t

/-- Attempt of regex `[?&]<key>(\d+)` at the current position, where `key` is
the literal parameter name including its `=` (e.g. `pageId=`): a `?` or `&`,
the literal key, then a maximal nonempty digit run. -/
def paramMatchAt (key : List Char) (l : List Char) : Option (List Char) :=
  match l with
  | c :: rest =>
    if (c == '?' || c == '&') && key.isPrefixOf rest then
      let ds := (rest.drop key.length).takeWhile jsDigit
      if ds = [] then none else some ds
    else none
  | [] => none

/-- Leftmost match of a `[?&]<key>(\d+)` pattern. -/
def paramFirst (key : List Char) : List Char → Option (List Char)
  | [] => none
  | c :: t =>
    match paramMatchAt key (c :: t) with
    | some ds => some ds
    | none => paramFirst key t

/-- `ConfluenceClient.extractPageIdFromUrl`: pattern 1 `\/pages\/(\d+)(?:\/|$)`,
then pattern 2 `[?&]pageId=(\d+)`, then pattern 3 `[?&]homepageId=(\d+)`;
first matching pattern wins, otherwise `null`. -/
def extractPageIdFromUrl (url : String) : Option String :=
  match p1First url.data with
  | some ds => some (String.mk ds)
  | none =>
    match paramFirst "pageId=".data url.data with
    | some ds => some (String.mk ds)
    | none =>
      match paramFirst "homepageId=".data url.data with
      | some ds => some (String.mk ds)
      | none => none

/-- JavaScript `str.replace(/\/$/, "")`: remove a single trailing slash. -/
def rstripSlash (s : String) : String :=
  if jsEndsWith s "/" then String.mk s.data.dropLast else s

/-- `UrlTransformer` after construction: both base URLs are stored with a
single trailing slash removed (the constructor applies `replace(/\/$/, "")`). -/
structure UrlTransformer where
  confluenceBaseUrl : String
  localBaseUrl : String

/-- The `UrlTransformer` constructor. -/
def mkUrlTransformer (confluenceBaseUrl localBaseUrl : String) : UrlTransformer :=
  ⟨rstripSlash confluenceBaseUrl, rstripSlash localBaseUrl⟩

/-- `UrlTransformer.shouldTransform`: the URL starts with the configured
Confluence base URL and a page id can be extracted from it. The try/catch
wrapper never fires in the model (all operations are total). -/
def UrlTransformer.shouldTransform (t : UrlTransformer) (url : String) : Bool :=
  jsStartsWith url t.confluenceBaseUrl && (extractPageIdFromUrl url).isSome

/-- `UrlTransformer.toLocalUrl`: identity unless `shouldTransform` holds and a
(truthy) page id is extracted, in which case `<localBase>/?pageId=<id>`. -/
def UrlTransformer.toLocalUrl (t : UrlTransformer) (confluenceUrl : String) : String :=
  if t.shouldTransform confluenceUrl then
    match extractPageIdFromUrl confluenceUrl with
    | none => confluenceUrl
    | some pageId =>
      if pageId = "" then confluenceUrl
      else t.localBaseUrl ++ "/?pageId=" ++ pageId
  else confluenceUrl

/-- Scheme characters allowed after the first letter of a URL scheme. -/
def schemeChar (c : Char) : Bool :=
  c.isAlpha || c.isDigit || c == '+' || c == '-' || c == '.'

/-- Model of WHATWG `new URL(s)` success for the absolute URLs handled here:
the string begins with a scheme (a letter followed by scheme characters) and a
colon. Strings without such a prefix make the constructor throw. -/
def hasScheme (s : String) : Bool :=
  let pre := s.data.takeWhile (fun c => !(c == ':'))
  decide (pre.length < s.data.length) &&
    (match pre with
     | [] => false
     | c :: rest => c.isAlpha && rest.all schemeChar)

/-- The suffix after the first occurrence of `c`, if any. -/
def afterChar (c : Char) : List Char → Option (List Char)
  | [] => none
  | x :: t => if x == c then some t else afterChar c t

/-- Split a character list on a separator character. -/
def splitOnChar (c : Char) : List Char → List (List Char)
  | [] => [[]]
  | x :: t =>
    let r := splitOnChar c t
    if x == c then [] :: r
    else
      match r with
      | [] => [[x]]
      | h :: t2 => (x :: h) :: t2

/-- First value for `key` in a query string: split on `&`, take the first
piece whose part before `=` equals the key, value is the part after `=`. -/
def findParam (q : List Char) (key : String) : Option String :=
  (splitOnChar '&' q).findSome? (fun piece =>
    let k := piece.takeWhile (fun c => !(c == '='))
    if k = key.data then
      some (String.mk ((piece.drop k.length).drop 1))
    else none)

/-- Model of `new URL(s).searchParams.get(key)`: outer `none` means the URL
constructor threw; `some none` means the parameter is absent. The query is the
text after the first `?`, cut at the first `#`. Percent/plus decoding is
omitted (the values handled here are plain digit strings). -/
def jsGetSearchParam (s : String) (key : String) : Option (Option String) :=
  if hasScheme s then
    let noFrag := s.data.takeWhile (fun c => !(c == '#'))
    match afterChar '?' noFrag with
    | none => some none
    | some q => some (findParam q key)
  else none

/-- `UrlTransformer.toConfluenceUrl`: parse the local URL's `pageId` search
parameter; on parse failure or a falsy parameter return the input unchanged,
otherwise `<confluenceBase>/wiki/pages/<pageId>`. -/
def UrlTransformer.toConfluenceUrl (t : UrlTransformer) (localUrl : String) : String :=
  match jsGetSearchParam localUrl "pageId" with
  | none => localUrl
  | some none => localUrl
  | some (some pageId) =>
    if pageId = "" then localUrl
    else t.confluenceBaseUrl ++ "/wiki/pages/" ++ pageId

/-- JavaScript `filename.toLowerCase()` (ASCII case fold; the filenames and
extensions compared here are ASCII). -/
def jsToLowerCase (s : String) : String :=
  String.mk (s.data.map Char.toLower)

/-- The image extension list of media-processor.ts. -/
def imageExtensions : List String :=
  [".jpg", ".jpeg", ".png", ".gif", ".webp", ".bmp", ".svg"]

/-- The video extension list of media-processor.ts. -/
def videoExtensions : List String :=
  [".mp4", ".webm", ".ogg", ".mov", ".avi", ".mkv", ".flv"]

/-- `isImageFile`: some image extension is a suffix of the lower-cased name. -/
def isImageFile (filename : String) : Bool :=
  imageExtensions.any (fun ext => jsEndsWith (jsToLowerCase filename) ext)

/-- `isVideoFile`: some video extension is a suffix of the lower-cased name. -/
def isVideoFile (filename : String) : Bool :=
  videoExtensions.any (fun ext => jsEndsWith (jsToLowerCase filename) ext)

/-- `MediaMapping` of media-processor.ts. `type` is one of `image`, `video`,
`file`, `unknown`; extraction always populates `fileName`. -/
structure MediaMapping where
  url : String
  type : String
  fileName : String
deriving DecidableEq, Repr

/-- Hexadecimal digit characters used by percent-encoding. -/
def hexDigitChar (n : Nat) : Char :=
  "0123456789ABCDEF".data.getD n '0'

/-- Characters `encodeURIComponent` leaves unescaped. -/
def uriUnreserved (c : Char) : Bool :=
  c.isAlpha || c.isDigit ||
    c == '-' || c == '_' || c == '.' || c == '!' || c == '~' || c == '*' ||
    c == Char.ofNat 39 || c == '(' || c == ')'

/-- Model of JavaScript `encodeURIComponent`: unreserved characters are kept,
every other character is written as the percent-encoded bytes of its UTF-8
encoding, with uppercase hexadecimal digits. -/
def encodeURIComponentModel (s : String) : String :=
  String.join (s.data.map (fun c =>
    if uriUnreserved c then String.singleton c
    else String.join (((String.singleton c).toUTF8.toList).map (fun b =>
      String.mk ['%', hexDigitChar (b.toNat / 16), hexDigitChar (b.toNat % 16)]))))

/-- The scan loop of `extractMediaMappings`: one iteration per attachment
reference in scan order. Duplicate filenames are skipped via the
`processedFiles` set; each new filename is classified by extension, given the
next positional key of its kind (`image-<n>` / `video-<n>` / `attachment-<n>`),
and stored in the mapping table under both the positional key and the raw
filename. -/
def mediaScanLoop (b pageId : String) :
    List String → List String → Nat → Nat → Nat →
    List (String × MediaMapping) → List (String × MediaMapping)
  | [], _, _, _, _, m => m
  | f :: rest, processed, imageIndex, videoIndex, otherIndex, m =>
    if processed.contains f then
      mediaScanLoop b pageId rest processed imageIndex videoIndex otherIndex m
    else
      let fileUrl := b ++ "/wiki/download/attachments/" ++ pageId ++ "/" ++
        encodeURIComponentModel f
      if isImageFile f then
        let mm : MediaMapping := ⟨fileUrl, "image", f⟩
        mediaScanLoop b pageId rest (f :: processed)
          (imageIndex + 1) videoIndex otherIndex
          (upsertKV (upsertKV m ("image-" ++ toString imageIndex) mm) f mm)
      else if isVideoFile f then
        let mm : MediaMapping := ⟨fileUrl, "video", f⟩
        mediaScanLoop b pageId rest (f :: processed)
          imageIndex (videoIndex + 1) otherIndex
          (upsertKV (upsertKV m ("video-" ++ toString videoIndex) mm) f mm)
      else
        let mm : MediaMapping := ⟨fileUrl, "file", f⟩
        mediaScanLoop b pageId rest (f :: processed)
          imageIndex videoIndex (otherIndex + 1)
          (upsertKV (upsertKV m ("attachment-" ++ toString otherIndex) mm) f mm)

/-- `extractMediaMappings(storageHtml, pageId)`. The regex scan of the storage
HTML for `<ri:attachment ri:filename="...">` markers is modelled by its
output: the list of referenced filenames in scan order. `baseUrl` models
`process.env.CONFLUENCE_BASE_URL` (`none` = unset); a falsy base yields the
empty table. The JS mapping object is modelled as an insertion-ordered
association list (all its keys here are non-index-like strings, for which
`Object.keys` returns insertion order). -/
def extractMediaMappings (filenames : List String) (baseUrl : Option String)
    (pageId : String) : List (String × MediaMapping) :=
  match baseUrl with
  | none => []
  | some b => if b = "" then [] else mediaScanLoop b pageId filenames [] 0 0 0 []

/-- The fixed demonstration image URL of the `placeholder-image` branch. -/
def unsplashDemoUrl : String :=
  "https://images.unsplash.com/photo-1498050108023-c5249f4df085?ixlib=rb-4.0.3&ixid=M3wxMjA3fDB8MHxwaG90by1wYWdlfHx8fGVufDB8fHx8fA%3D%3D&auto=format&fit=crop&w=1200&q=80"

/-- Lexicographic code-unit comparison of strings (the JS `Array.sort()`
default comparator's order for the ASCII keys sorted here). -/
def charListLe : List Char → List Char → Bool
  | [], _ => true
  | _ :: _, [] => false
  | a :: s, b :: t =>
    if a = b then charListLe s t else decide (a < b)

/-- Insert into a sorted list, keeping equal elements in original order. -/
def sortedInsert (x : String) : List String → List String
  | [] => [x]
  | y :: t => if charListLe y.data x.data then y :: sortedInsert x t else x :: y :: t

/-- Model of JS `Array.sort()` on string keys: a stable sort by code-unit
lexicographic order. -/
def insertionSortLe : List String → List String
  | [] => []
  | x :: t => sortedInsert x (insertionSortLe t)

/-- Is a mapping key one of the positional index keys? -/
def isIndexKey (k : String) : Bool :=
  jsStartsWith k "image-" || jsStartsWith k "video-" || jsStartsWith k "attachment-"

/-- The `possibleKeys` lookup list of `enrichMediaNodes` at counter value `c`:
(1) the node's declared id; (2) the three positional keys at the current
counter; (3) every non-positional key (raw filenames) in insertion order;
(4) every positional key, sorted (JS `Array.sort()` default: code-unit
lexicographic), as last resort. -/
def possibleKeys (mediaId : String) (m : List (String × MediaMapping))
    (c : Nat) : List String :=
  [mediaId, "image-" ++ toString c, "video-" ++ toString c,
    "attachment-" ++ toString c]
  ++ (m.map Prod.fst).filter (fun k => !(isIndexKey k))
  ++ insertionSortLe ((m.map Prod.fst).filter isIndexKey)

/-- The attribute spread of the `placeholder-image` branch:
`{...node.attrs, processedUrl: <demo image>, processedType: "image"}`. -/
def placeholderAttrs (attrs : List (String × String)) : List (String × String) :=
  upsertKV (upsertKV attrs "processedUrl" unsplashDemoUrl) "processedType" "image"

/-- The attribute spread of the found-mapping branch: `{...node.attrs,
processedUrl, processedType, processedFileName}` from the found mapping. -/
def mappingAttrs (attrs : List (String × String)) (fm : MediaMapping) :
    List (String × String) :=
  upsertKV (upsertKV (upsertKV attrs "processedUrl" fm.url)
    "processedType" fm.type) "processedFileName" fm.fileName

mutual
/-- `enrichMediaNodes(node, mediaMappings, mediaCounter)`. The mutable counter
is threaded explicitly: the result pairs the returned node with the counter
value after the call. A media node of file kind with a truthy id is annotated
through the `placeholder-image` branch or the `possibleKeys` lookup chain
(both return without visiting the node's content); if no mapping is found the
counter still increments and the children are processed. All other nodes map
the processor over their content, if present. -/
def enrichMediaNodes (m : List (String × MediaMapping)) (node : ADFNode)
    (c : Nat) : ADFNode × Nat :=
  match node with
  | .node ty attrs marks tx content =>
    if ty = "media" ∧ lookupKV attrs "type" = some "file" ∧
        truthyS (lookupKV attrs "id") = true then
      if (lookupKV attrs "id").getD "" = "placeholder-image" then
        (.node ty (placeholderAttrs attrs) marks tx content, c + 1)
      else
        match (possibleKeys ((lookupKV attrs "id").getD "") m c).findSome?
            (fun k => lookupKV m k) with
        | some fm =>
          (.node ty (mappingAttrs attrs fm) marks tx content, c + 1)
        | none => enrichMediaContent m ty attrs marks tx content (c + 1)
    else enrichMediaContent m ty attrs marks tx content c

/-- The shared tail of `enrichMediaNodes`: `if (node.content) { return
{...node, content: node.content.map(...)} } return node`. -/
def enrichMediaContent (m : List (String × MediaMapping)) (ty : String)
    (attrs : List (String × String)) (marks : List ADFMark)
    (tx : Option String) (content : Option (List ADFNode)) (c : Nat) :
    ADFNode × Nat :=
  match content with
  | none => (.node ty attrs marks tx none, c)
  | some l =>
    (.node ty attrs marks tx (some (enrichMediaList m l c).1),
      (enrichMediaList m l c).2)

/-- The `node.content.map(child => enrichMediaNodes(child, ...))` recursion,
threading the shared counter left to right. -/
def enrichMediaList (m : List (String × MediaMapping)) (l : List ADFNode)
    (c : Nat) : List ADFNode × Nat :=
  match l with
  | [] => ([], c)
  | n :: rest =>
    ((enrichMediaNodes m n c).1 ::
        (enrichMediaList m rest (enrichMediaNodes m n c).2).1,
      (enrichMediaList m rest (enrichMediaNodes m n c).2).2)
end

/-- `processADFWithMedia(adfDocument, storageHtml, pageId)`: extract the media
mapping table, then enrich the document starting from counter 0. -/
def processADFWithMedia (adfDocument : ADFNode) (filenames : List String)
    (baseUrl : Option String) (pageId : String) : ADFNode :=
  (enrichMediaNodes (extractMediaMappings filenames baseUrl pageId)
    adfDocument 0).1

/-- `EnrichedLinkData` of the link processor. -/
structure EnrichedLinkData where
  pageId : String
  title : String
  originalUrl : String
deriving DecidableEq, Repr

/-- `isConfluenceUrl(url, confluenceBaseUrl)`: the URL starts with the
normalized base URL (trailing slash removed) and a page id can be extracted. -/
def isConfluenceUrl (url : String) (confluenceBaseUrl : String) : Bool :=
  jsStartsWith url (rstripSlash confluenceBaseUrl) &&
    (extractPageIdFromUrl url).isSome

/-- `urls.add(url)` on the insertion-ordered JS Set, modelled as a list of
distinct URLs in insertion order. -/
def addUrl (urls : List String) (u : String) : List String :=
  if u ∈ urls then urls else urls ++ [u]

/-- The inline-card step of `extractConfluenceUrls`: add the node's truthy
`url` attribute when the node is an `inlineCard` and the URL is a Confluence
URL. -/
def cardUrlStep (base : String) (ty : String) (attrs : List (String × String))
    (urls : List String) : List String :=
  if ty = "inlineCard" ∧ truthyS (lookupKV attrs "url") = true then
    if isConfluenceUrl ((lookupKV attrs "url").getD "") base then
      addUrl urls ((lookupKV attrs "url").getD "")
    else urls
  else urls

/-- The step for one mark of `extractConfluenceUrls`: add the Confluence URL
found in a `link` mark's truthy `href`. -/
def markUrlStep (base : String) (mk : ADFMark) (urls : List String) :
    List String :=
  if mk.type = "link" ∧ truthyS (lookupKV mk.attrs "href") = true then
    if isConfluenceUrl ((lookupKV mk.attrs "href").getD "") base then
      addUrl urls ((lookupKV mk.attrs "href").getD "")
    else urls
  else urls

/-- The link-mark loop of `extractConfluenceUrls`. -/
def collectMarkUrls (base : String) : List ADFMark → List String → List String
  | [], urls => urls
  | mk :: rest, urls => collectMarkUrls base rest (markUrlStep base mk urls)

mutual
/-- `extractConfluenceUrls(node, confluenceBaseUrl, urls)`: collect, into the
insertion-ordered URL set, each `inlineCard` node's truthy `url` and each
`link` mark's truthy `href` that is a Confluence URL, then recurse over
`content`. -/
def extractConfluenceUrls (base : String) (node : ADFNode)
    (urls : List String) : List String :=
  match node with
  | .node ty attrs marks _ content =>
    match content with
    | none =>
      collectMarkUrls base marks (cardUrlStep base ty attrs urls)
    | some l =>
      extractConfluenceUrlsList base l
        (collectMarkUrls base marks (cardUrlStep base ty attrs urls))

/-- The child loop of `extractConfluenceUrls`. -/
def extractConfluenceUrlsList (base : String) (l : List ADFNode)
    (urls : List String) : List String :=
  match l with
  | [] => urls
  | n :: rest =>
    extractConfluenceUrlsList base rest (extractConfluenceUrls base n urls)
end

/-- The `pageIdMap.get(pageId)!.push(url)` step: append the URL to its page
id's group, creating the group at the end of the insertion-ordered map if the
page id is new. -/
def addGroup : List (String × List String) → String → String →
    List (String × List String)
  | [], pid, u => [(pid, [u])]
  | (p, us) :: t, pid, u =>
    if p = pid then (p, us ++ [u]) :: t else (p, us) :: addGroup t pid u

/-- The grouping loop of `fetchPageTitles`: group the URL set by extracted
page id, dropping URLs with no extractable id. -/
def pageIdMapOf (urls : List String) : List (String × List String) :=
  urls.foldl (fun m u =>
    match extractPageIdFromUrl u with
    | some pid => addGroup m pid u
    | none => m) []

/-- `fetchPageTitles(urls, client)`. The injected fetch capability
(`client.getPage(pageId).title`, with failures caught per target) is modelled
as `fetch : String → Option String`. One fetch is issued per entry of the page
id map; a failed fetch contributes no results for its group. Result order
across groups follows map order (downstream the results are keyed by their
unique `originalUrl`, so the concurrent completion order of `Promise.all`
cannot be observed in the returned map). -/
def fetchPageTitles (urls : List String) (fetch : String → Option String) :
    List EnrichedLinkData :=
  (pageIdMapOf urls).foldl (fun acc e =>
    match fetch e.1 with
    | some title => acc ++ e.2.map (fun u => ⟨e.1, title, u⟩)
    | none => acc) []

/-- The page ids for which `fetchPageTitles` issues a metadata fetch (one
`client.getPage` call per entry of the page id map, in map order). -/
def fetchedPageIds (urls : List String) : List String :=
  (pageIdMapOf urls).map Prod.fst

/-- The inline-card enrichment step of `enrichAdfWithLinkData`: an
`inlineCard` with a truthy `url` that has an enriched record gains `title` and
`pageId` attributes (`{...attrs, title, pageId}`). -/
def enrichCardAttrs (links : List (String × EnrichedLinkData)) (ty : String)
    (attrs : List (String × String)) : List (String × String) :=
  if ty = "inlineCard" ∧ truthyS (lookupKV attrs "url") = true then
    match lookupKV links ((lookupKV attrs "url").getD "") with
    | some e => upsertKV (upsertKV attrs "title" e.title) "pageId" e.pageId
    | none => attrs
  else attrs

/-- The link-mark enrichment step of `enrichAdfWithLinkData`: a `link` mark
with a truthy `href` that has an enriched record gains `title` and `pageId`. -/
def enrichMarkWithLinkData (links : List (String × EnrichedLinkData))
    (mk : ADFMark) : ADFMark :=
  if mk.type = "link" ∧ truthyS (lookupKV mk.attrs "href") = true then
    match lookupKV links ((lookupKV mk.attrs "href").getD "") with
    | some e => ⟨mk.type, upsertKV (upsertKV mk.attrs "title" e.title)
        "pageId" e.pageId⟩
    | none => mk
  else mk

mutual
/-- `enrichAdfWithLinkData(node, enrichedLinks)`: clone the node; an
`inlineCard` with a truthy `url` that has an enriched record gains `title` and
`pageId` attributes; every mark is passed through the link-mark step; children
are processed recursively. -/
def enrichAdfWithLinkData (links : List (String × EnrichedLinkData))
    (node : ADFNode) : ADFNode :=
  match node with
  | .node ty attrs marks tx content =>
    match content with
    | none =>
      .node ty (enrichCardAttrs links ty attrs)
        (marks.map (enrichMarkWithLinkData links)) tx none
    | some l =>
      .node ty (enrichCardAttrs links ty attrs)
        (marks.map (enrichMarkWithLinkData links)) tx
        (some (enrichAdfList links l))

/-- The child loop of `enrichAdfWithLinkData`. -/
def enrichAdfList (links : List (String × EnrichedLinkData)) :
    List ADFNode → List ADFNode
  | [] => []
  | n :: rest => enrichAdfWithLinkData links n :: enrichAdfList links rest
end

/-- The `enrichedLinks` map: `pageTitles.forEach(data =>
enrichedLinks.set(data.originalUrl, data))` on an insertion-ordered map. -/
def linksMapOf (results : List EnrichedLinkData) :
    List (String × EnrichedLinkData) :=
  results.foldl (fun m d => upsertKV m d.originalUrl d) []

/-- `processADFWithLinks(adf, options)`: collect the Confluence URLs, fetch
titles per unique page id, key the results by original URL into the enriched
link map, and annotate the tree. Returns the enriched tree and the map. -/
def processADFWithLinks (adf : ADFNode) (confluenceBaseUrl : String)
    (fetch : String → Option String) :
    ADFNode × List (String × EnrichedLinkData) :=
  (enrichAdfWithLinkData
      (linksMapOf (fetchPageTitles (extractConfluenceUrls confluenceBaseUrl adf [])
        fetch)) adf,
    linksMapOf (fetchPageTitles (extractConfluenceUrls confluenceBaseUrl adf [])
      fetch))

/-- Whitespace characters of the JS `\s` class and `String.trim` for the ASCII
texts handled here: space, tab, line feed, carriage return, vertical tab, form
feed. -/
def jsWs (c : Char) : Bool :=
  c == ' ' || c == '\t' || c == '\n' || c == '\r' ||
    c == Char.ofNat 11 || c == Char.ofNat 12

/-- Characters kept by `replace(/[^a-z0-9\s-]/g, "")`. -/
def slugKeep (c : Char) : Bool :=
  (decide ('a' ≤ c) && decide (c ≤ 'z')) || c.isDigit || jsWs c || c == '-'

/-- Worker for `replace(/\s+/g, "-")`: the flag records whether the previous
character was whitespace (in which case the current run already emitted its
hyphen). -/
def collapseWsAux : Bool → List Char → List Char
  | _, [] => []
  | prevWs, c :: t =>
    if jsWs c then
      if prevWs then collapseWsAux true t else '-' :: collapseWsAux true t
    else c :: collapseWsAux false t

/-- `replace(/\s+/g, "-")`: each maximal whitespace run becomes one hyphen. -/
def collapseWsRuns (l : List Char) : List Char :=
  collapseWsAux false l

/-- JavaScript `String.trim()` (whitespace from both ends). -/
def jsTrim (s : String) : String :=
  String.mk (((s.data.dropWhile jsWs).reverse.dropWhile jsWs).reverse)

/-- The `headingText` of renderADF's heading case: the `text` of the direct
`text`-type children, concatenated (`join("")`; a missing `text` contributes
the empty string). -/
def headingTextOf : Option (List ADFNode) → String
  | none => ""
  | some l => String.join (l.map (fun child =>
      if child.typeOf = "text" then child.textOf.getD "" else ""))

/-- The derived heading id of renderADF: lower-case, strip characters outside
`[a-z0-9\s-]`, replace whitespace runs with single hyphens, then `trim()`. -/
def deriveHeadingId (content : Option (List ADFNode)) : String :=
  jsTrim (String.mk (collapseWsRuns
    ((jsToLowerCase (headingTextOf content)).data.filter slugKeep)))

/-- The heading anchor id of renderADF's heading case: the truthy
`generatedId` attribute if present, otherwise the derived id. -/
def headingIdOf (node : ADFNode) : String :=
  if truthyS (lookupKV node.attrsOf "generatedId") = true then
    (lookupKV node.attrsOf "generatedId").getD ""
  else deriveHeadingId node.contentOf

/-- `n` occurs in the tree `t` (reflexive descent through `content`). -/
inductive Subnode : ADFNode → ADFNode → Prop where
  | refl (n : ADFNode) : Subnode n n
  | step {n c t : ADFNode} {l : List ADFNode} (hc : t.contentOf = some l)
      (hm : c ∈ l) (h : Subnode n c) : Subnode n t

/-- Is this a media node of file kind with a truthy declared id — exactly the
guard of the media branch of `enrichMediaNodes`? -/
def isFileIdMedia (n : ADFNode) : Bool :=
  n.typeOf == "media" && (lookupKV n.attrsOf "type" == some "file") &&
    truthyS (lookupKV n.attrsOf "id")

mutual
/-- Number of media nodes of file kind with a truthy id in the tree. -/
def countFileIdMedia : ADFNode → Nat
  | .node ty attrs marks tx content =>
    (if isFileIdMedia (.node ty attrs marks tx content) then 1 else 0) +
      (match content with
       | none => 0
       | some l => countFileIdMediaList l)

/-- Sum of `countFileIdMedia` over a child list. -/
def countFileIdMediaList : List ADFNode → Nat
  | [] => 0
  | n :: rest => countFileIdMedia n + countFileIdMediaList rest
end

mutual
/-- Number of media nodes whose declared kind is `file` (the claim's
"file-kind media nodes"), with or without an id. -/
def countFileMedia : ADFNode → Nat
  | .node ty attrs _ _ content =>
    (if ty == "media" && (lookupKV attrs "type" == some "file") then 1 else 0) +
      (match content with
       | none => 0
       | some l => countFileMediaList l)

/-- Sum of `countFileMedia` over a child list. -/
def countFileMediaList : List ADFNode → Nat
  | [] => 0
  | n :: rest => countFileMedia n + countFileMediaList rest
end

mutual
/-- Every media node in the tree is a leaf (no `content`, or empty
`content`) — true of Atlas Document Format documents, where media nodes
carry no children. -/
def mediaLeaves : ADFNode → Bool
  | .node ty _ _ _ content =>
    (if ty == "media" then
       match content with
       | none => true
       | some [] => true
       | some (_ :: _) => false
     else true) &&
      (match content with
       | none => true
       | some l => mediaLeavesList l)

/-- `mediaLeaves` over a child list. -/
def mediaLeavesList : List ADFNode → Bool
  | [] => true
  | n :: rest => mediaLeaves n && mediaLeavesList rest
end

/-- The URL keys `enrichAdfWithLinkData` looks up in the enriched-link map for
one node (not its children): the `url` of an `inlineCard` with a truthy `url`
attribute, and the `href` of every `link` mark with a truthy `href`. -/
def ownUrlKeys (n : ADFNode) : List String :=
  (if n.typeOf = "inlineCard" ∧ truthyS (lookupKV n.attrsOf "url") = true then
    [(lookupKV n.attrsOf "url").getD ""]
   else [])
  ++ n.marksOf.filterMap (fun mk =>
      if mk.type = "link" ∧ truthyS (lookupKV mk.attrs "href") = true then
        some ((lookupKV mk.attrs "href").getD "")
      else none)

mutual
/-- All URL keys `enrichAdfWithLinkData` consults anywhere in the subtree. -/
def nodeUrls : ADFNode → List String
  | .node ty attrs marks tx content =>
    ownUrlKeys (.node ty attrs marks tx content) ++
      (match content with
       | none => []
       | some l => nodeUrlsList l)

/-- `nodeUrls` over a child list. -/
def nodeUrlsList : List ADFNode → List String
  | [] => []
  | n :: rest => nodeUrls n ++ nodeUrlsList rest
end

/-- Modelled from the spec: the amended derived-id computation — lower-case,
strip characters outside `[a-z0-9\s-]`, collapse whitespace runs to single
hyphens, and no edge trimming (the code's final whitespace `trim()` is a
no-op because no whitespace survives the hyphen replacement). -/
def specSlugNoTrim (s : String) : String :=
  String.mk (collapseWsRuns ((jsToLowerCase s).data.filter slugKeep))

/-- A file-kind media node with declared id `i` and no children. -/
def fileMediaNode (i : String) : ADFNode :=
  .node "media" [("type", "file"), ("id", i)] [] none none

/-- The C1 scenario document: two file-kind media nodes, in order, whose
declared ids (`id-a`, `id-b`) match no mapping-table key. -/
def c1Tree : ADFNode :=
  .node "doc" [] [] none (some [fileMediaNode "id-a", fileMediaNode "id-b"])

/-- The C1 scenario side payload: attachments `diagram.png` then `notes.pdf`. -/
def c1Filenames : List String := ["diagram.png", "notes.pdf"]

/-- The C1 scenario output document. -/
def c1Out : ADFNode :=
  processADFWithMedia c1Tree c1Filenames (some "https://conf.example") "123"

/-- The (processedType, processedFileName) annotations of the C1 output's
top-level children, in order. -/
def c1Annotations : List (Option String × Option String) :=
  (c1Out.contentOf.getD []).map (fun n =>
    (lookupKV n.attrsOf "processedType", lookupKV n.attrsOf "processedFileName"))

/-- A heading whose single text child is ` Getting Started ` (note the edge
whitespace) and that carries no precomputed id. -/
def c5EdgeHeading : ADFNode :=
  .node "heading" [("level", "1")] [] none
    (some [.node "text" [] [] (some " Getting Started ") none])

/-- A heading whose single text child is `Getting Started!!` with no
precomputed id (the spec's example). -/
def c5ExampleHeading : ADFNode :=
  .node "heading" [("level", "1")] [] none
    (some [.node "text" [] [] (some "Getting Started!!") none])

/-- A transformer whose configured external base itself contains a
`/pages/<digits>` segment — accepted by the constructor. -/
def c6Cfg : UrlTransformer :=
  mkUrlTransformer "https://h.example/pages/7" "http://localhost:3000"

/-- A URL of the C6 configured instance carrying `pageId=42`. -/
def c6Url : String := "https://h.example/pages/7?pageId=42"

/-- A well-formed transformer configuration for witnesses. -/
def goodCfg : UrlTransformer :=
  mkUrlTransformer "https://x.atlassian.net" "http://localhost:3000"

/-- An inline card node pointing at `u`. -/
def cardNode (u : String) : ADFNode := .node "inlineCard" [("url", u)] [] none none

/-- A text node carrying a link mark with href `u`. -/
def linkTextNode (u : String) : ADFNode :=
  .node "text" [] [⟨"link", [("href", u)]⟩] (some "x") none

/-- The C3 scenario document: two link nodes pointing at
`https://svc/pages/42/Title` and `https://svc/pages/42` (same target `42`). -/
def c3Tree : ADFNode :=
  .node "doc" [] [] none
    (some [cardNode "https://svc/pages/42/Title", linkTextNode "https://svc/pages/42"])

/-- The C3 scenario fetch capability: target `42` resolves to title `T42`. -/
def c3Fetch (i : String) : Option String :=
  if i = "42" then some "T42" else none

/-- The C4 scenario document: links to targets `42` and `99`. -/
def c4Tree : ADFNode :=
  .node "doc" [] [] none
    (some [cardNode "https://svc/pages/42/Title",
           linkTextNode "https://svc/pages/99",
           cardNode "https://svc/pages/99"])

/-- The C4 scenario fetch capability: the fetch for target `99` fails. -/
def c4Fetch (i : String) : Option String :=
  if i = "42" then some "T42" else none

/-- The C8 counterexample document: a resolvable file-kind media node whose
`content` hides another file-kind media node, next to a file-kind media node
with no id. Three file-kind media nodes in total. -/
def c8Tree : ADFNode :=
  .node "doc" [] [] none
    (some [.node "media" [("type", "file"), ("id", "id-a")] [] none
             (some [fileMediaNode "id-c"]),
           .node "media" [("type", "file")] [] none none])

/-- The media mapping table used by the C8 counterexample (same side payload
as the C1 scenario). -/
def c8Map : List (String × MediaMapping) :=
  extractMediaMappings c1Filenames (some "https://conf.example") "123"

/-- Does the character list contain the substring `/pages/` anywhere? Used to
state the amended round-trip condition on the configured external base. -/
def hasPagesSub : List Char → Bool
  | [] => false
  | c :: t => startsWithPages (c :: t) || hasPagesSub t

/-
Theorems. Helper lemmas come first, then one theorem per claim (with its
witness or counterexample where required).
-/

theorem lookupKV_upsertKV_self {α : Type} (m : List (String × α)) (k : String)
    (v : α) : lookupKV (upsertKV m k v) k = some v := by
  induction m with
  | nil => simp [upsertKV, lookupKV]
  | cons p t ih =>
    obtain ⟨k0, v0⟩ := p
    by_cases h : k0 = k
    · simp [upsertKV, lookupKV, h]
    · simp [upsertKV, lookupKV, h, ih]

theorem lookupKV_upsertKV_ne {α : Type} (m : List (String × α)) (k k' : String)
    (v : α) (h : k' ≠ k) : lookupKV (upsertKV m k v) k' = lookupKV m k' := by
  have h2 : ¬ k = k' := fun hh => h hh.symm
  induction m with
  | nil => simp [upsertKV, lookupKV, h2]
  | cons p t ih =>
    obtain ⟨k0, v0⟩ := p
    by_cases h0 : k0 = k
    · have h3 : ¬ k0 = k' := by rw [h0]; exact h2
      simp [upsertKV, lookupKV, h0, h3, h2]
    · by_cases h1 : k0 = k'
      · simp [upsertKV, lookupKV, h0, h1, h]
      · simp [upsertKV, lookupKV, h0, h1, ih]

theorem upsertKV_of_lookupKV_eq {α : Type} (m : List (String × α))
    (k : String) (v : α) (h : lookupKV m k = some v) : upsertKV m k v = m := by
  induction m with
  | nil => simp [lookupKV] at h
  | cons p t ih =>
    obtain ⟨k0, v0⟩ := p
    by_cases h0 : k0 = k
    · simp [lookupKV, h0] at h
      simp [upsertKV, h0, h]
    · simp [lookupKV, h0] at h
      simp [upsertKV, h0, ih h]

/-- Size bound used for recursion over the nested `content` field. -/
theorem sizeOf_mem_content {x : ADFNode} {l : List ADFNode}
    (ty : String) (attrs : List (String × String)) (marks : List ADFMark)
    (tx : Option String) (hx : x ∈ l) :
    sizeOf x < sizeOf (ADFNode.node ty attrs marks tx (some l)) := by
  have h1 := List.sizeOf_lt_of_mem hx
  simp only [ADFNode.node.sizeOf_spec, Option.some.sizeOf_spec]
  omega

/-- Structural induction for `ADFNode` through the optional child list. -/
theorem adfInd (P : ADFNode → Prop)
    (step : ∀ ty attrs marks tx content,
      (∀ l, content = some l → ∀ x ∈ l, P x) →
      P (ADFNode.node ty attrs marks tx content)) : ∀ n, P n
  | ADFNode.node ty attrs marks tx none =>
    step ty attrs marks tx none (by intro l h; cases h)
  | ADFNode.node ty attrs marks tx (some l) =>
    step ty attrs marks tx (some l) (fun l2 h x hx => by
      cases h
      exact adfInd P step x)
termination_by n => sizeOf n
decreasing_by
  exact sizeOf_mem_content ty attrs marks tx hx

/-- C1 counterexample: with side payload `diagram.png`, `notes.pdf` and two
file-kind media nodes with unmatched ids, the second node is annotated with
processedType `image` and processedFileName `diagram.png` — not kind `file` /
filename `notes.pdf` as the claim's scenario asserts. -/
theorem c1_counterexample :
    c1Annotations =
      [(some "image", some "diagram.png"), (some "image", some "diagram.png")] ∧
    c1Annotations ≠
      [(some "image", some "diagram.png"), (some "file", some "notes.pdf")] :=
  ⟨rfl, by decide⟩

/-- C1 (corrected): in the scenario, the first node resolves via positional
key `image-0` to kind `image` / filename `diagram.png`; the second node's
positional keys `image-1`, `video-1`, `attachment-1` are all absent (the
mapping table indexes positions per kind while the counter is global), so the
raw-filename step matches `diagram.png` first, and the second node is likewise
annotated kind `image` / filename `diagram.png` (with the same download URL). -/
theorem c1_amended :
    c1Annotations =
      [(some "image", some "diagram.png"), (some "image", some "diagram.png")] ∧
    (c1Out.contentOf.getD []).map (fun n => lookupKV n.attrsOf "processedUrl") =
      [some "https://conf.example/wiki/download/attachments/123/diagram.png",
       some "https://conf.example/wiki/download/attachments/123/diagram.png"] :=
  ⟨rfl, rfl⟩

theorem lookupKV_placeholderAttrs (attrs : List (String × String)) (k : String)
    (h1 : k ≠ "processedUrl") (h2 : k ≠ "processedType") :
    lookupKV (placeholderAttrs attrs) k = lookupKV attrs k := by
  unfold placeholderAttrs
  rw [lookupKV_upsertKV_ne _ _ _ _ h2, lookupKV_upsertKV_ne _ _ _ _ h1]

theorem placeholderAttrs_idem (attrs : List (String × String)) :
    placeholderAttrs (placeholderAttrs attrs) = placeholderAttrs attrs := by
  have hU : lookupKV (placeholderAttrs attrs) "processedUrl" =
      some unsplashDemoUrl := by
    unfold placeholderAttrs
    rw [lookupKV_upsertKV_ne _ "processedType" "processedUrl" _ (by decide)]
    exact lookupKV_upsertKV_self _ _ _
  have hT : lookupKV (upsertKV (placeholderAttrs attrs) "processedUrl"
      unsplashDemoUrl) "processedType" = some "image" := by
    rw [lookupKV_upsertKV_ne _ "processedUrl" "processedType" _ (by decide)]
    unfold placeholderAttrs
    exact lookupKV_upsertKV_self _ _ _
  show upsertKV (upsertKV (placeholderAttrs attrs) "processedUrl"
      unsplashDemoUrl) "processedType" "image" = placeholderAttrs attrs
  rw [upsertKV_of_lookupKV_eq _ _ _ hT, upsertKV_of_lookupKV_eq _ _ _ hU]

theorem lookupKV_mappingAttrs (attrs : List (String × String))
    (fm : MediaMapping) (k : String) (h1 : k ≠ "processedUrl")
    (h2 : k ≠ "processedType") (h3 : k ≠ "processedFileName") :
    lookupKV (mappingAttrs attrs fm) k = lookupKV attrs k := by
  unfold mappingAttrs
  rw [lookupKV_upsertKV_ne _ _ _ _ h3, lookupKV_upsertKV_ne _ _ _ _ h2,
    lookupKV_upsertKV_ne _ _ _ _ h1]

theorem mappingAttrs_idem (attrs : List (String × String)) (fm : MediaMapping) :
    mappingAttrs (mappingAttrs attrs fm) fm = mappingAttrs attrs fm := by
  have hU : lookupKV (mappingAttrs attrs fm) "processedUrl" = some fm.url := by
    unfold mappingAttrs
    rw [lookupKV_upsertKV_ne _ "processedFileName" "processedUrl" _ (by decide),
      lookupKV_upsertKV_ne _ "processedType" "processedUrl" _ (by decide)]
    exact lookupKV_upsertKV_self _ _ _
  have hT : lookupKV (upsertKV (mappingAttrs attrs fm) "processedUrl" fm.url)
      "processedType" = some fm.type := by
    rw [lookupKV_upsertKV_ne _ "processedUrl" "processedType" _ (by decide)]
    unfold mappingAttrs
    rw [lookupKV_upsertKV_ne _ "processedFileName" "processedType" _ (by decide)]
    exact lookupKV_upsertKV_self _ _ _
  have hF : lookupKV (upsertKV (upsertKV (mappingAttrs attrs fm) "processedUrl"
      fm.url) "processedType" fm.type) "processedFileName" =
      some fm.fileName := by
    rw [lookupKV_upsertKV_ne _ "processedType" "processedFileName" _ (by decide),
      lookupKV_upsertKV_ne _ "processedUrl" "processedFileName" _ (by decide)]
    unfold mappingAttrs
    exact lookupKV_upsertKV_self _ _ _
  show upsertKV (upsertKV (upsertKV (mappingAttrs attrs fm) "processedUrl"
      fm.url) "processedType" fm.type) "processedFileName" fm.fileName =
      mappingAttrs attrs fm
  rw [upsertKV_of_lookupKV_eq _ _ _ hF, upsertKV_of_lookupKV_eq _ _ _ hT,
    upsertKV_of_lookupKV_eq _ _ _ hU]

theorem enrichMediaNodes_step_placeholder (m : List (String × MediaMapping))
    (ty : String) (attrs : List (String × String)) (marks : List ADFMark)
    (tx : Option String) (content : Option (List ADFNode)) (c : Nat)
    (hb : ty = "media" ∧ lookupKV attrs "type" = some "file" ∧
      truthyS (lookupKV attrs "id") = true)
    (hp : (lookupKV attrs "id").getD "" = "placeholder-image") :
    enrichMediaNodes m (.node ty attrs marks tx content) c =
      (.node ty (placeholderAttrs attrs) marks tx content, c + 1) := by
  rw [enrichMediaNodes.eq_def]
  dsimp only
  rw [if_pos hb, if_pos hp]

theorem enrichMediaNodes_step_found (m : List (String × MediaMapping))
    (ty : String) (attrs : List (String × String)) (marks : List ADFMark)
    (tx : Option String) (content : Option (List ADFNode)) (c : Nat)
    (fm : MediaMapping)
    (hb : ty = "media" ∧ lookupKV attrs "type" = some "file" ∧
      truthyS (lookupKV attrs "id") = true)
    (hp : ¬ (lookupKV attrs "id").getD "" = "placeholder-image")
    (hf : (possibleKeys ((lookupKV attrs "id").getD "") m c).findSome?
      (fun k => lookupKV m k) = some fm) :
    enrichMediaNodes m (.node ty attrs marks tx content) c =
      (.node ty (mappingAttrs attrs fm) marks tx content, c + 1) := by
  rw [enrichMediaNodes.eq_def]
  dsimp only
  rw [if_pos hb, if_neg hp]
  simp only [hf]

theorem enrichMediaNodes_step_miss (m : List (String × MediaMapping))
    (ty : String) (attrs : List (String × String)) (marks : List ADFMark)
    (tx : Option String) (content : Option (List ADFNode)) (c : Nat)
    (hb : ty = "media" ∧ lookupKV attrs "type" = some "file" ∧
      truthyS (lookupKV attrs "id") = true)
    (hp : ¬ (lookupKV attrs "id").getD "" = "placeholder-image")
    (hf : (possibleKeys ((lookupKV attrs "id").getD "") m c).findSome?
      (fun k => lookupKV m k) = none) :
    enrichMediaNodes m (.node ty attrs marks tx content) c =
      enrichMediaContent m ty attrs marks tx content (c + 1) := by
  rw [enrichMediaNodes.eq_def]
  dsimp only
  rw [if_pos hb, if_neg hp]
  simp only [hf]

theorem enrichMediaNodes_step_other (m : List (String × MediaMapping))
    (ty : String) (attrs : List (String × String)) (marks : List ADFMark)
    (tx : Option String) (content : Option (List ADFNode)) (c : Nat)
    (hb : ¬ (ty = "media" ∧ lookupKV attrs "type" = some "file" ∧
      truthyS (lookupKV attrs "id") = true)) :
    enrichMediaNodes m (.node ty attrs marks tx content) c =
      enrichMediaContent m ty attrs marks tx content c := by
  rw [enrichMediaNodes.eq_def]
  dsimp only
  rw [if_neg hb]

theorem enrichMediaList_idem_of (m : List (String × MediaMapping))
    (l : List ADFNode)
    (h : ∀ x ∈ l, ∀ c, enrichMediaNodes m (enrichMediaNodes m x c).1 c =
      enrichMediaNodes m x c) :
    ∀ c, enrichMediaList m (enrichMediaList m l c).1 c =
      enrichMediaList m l c := by
  induction l with
  | nil => intro c; simp [enrichMediaList]
  | cons n rest ih =>
    intro c
    have hn := h n (by simp) c
    have hrest := ih (fun x hx => h x (by simp [hx]))
    simp only [enrichMediaList]
    rw [hn]
    rw [hrest]

theorem enrichMediaContent_idem_of (m : List (String × MediaMapping))
    (ty : String) (attrs : List (String × String)) (marks : List ADFMark)
    (tx : Option String) (content : Option (List ADFNode)) (c c2 : Nat)
    (hrun : ∀ l, content = some l →
      enrichMediaList m (enrichMediaList m l c2).1 c2 = enrichMediaList m l c2)
    (hsame : ∀ content2,
      enrichMediaNodes m (.node ty attrs marks tx content2) c =
        enrichMediaContent m ty attrs marks tx content2 c2) :
    enrichMediaNodes m (enrichMediaContent m ty attrs marks tx content c2).1 c =
      enrichMediaContent m ty attrs marks tx content c2 := by
  cases content with
  | none =>
    simp only [enrichMediaContent]
    rw [hsame none]
    simp [enrichMediaContent]
  | some l =>
    simp only [enrichMediaContent]
    rw [hsame (some (enrichMediaList m l c2).1)]
    simp only [enrichMediaContent]
    rw [hrun l rfl]

theorem enrichMediaNodes_idem (m : List (String × MediaMapping)) :
    ∀ n, ∀ c, enrichMediaNodes m (enrichMediaNodes m n c).1 c =
      enrichMediaNodes m n c := by
  intro n
  induction n using adfInd with
  | step ty attrs marks tx content ih =>
    intro c
    by_cases hb : (ty = "media" ∧ lookupKV attrs "type" = some "file" ∧
        truthyS (lookupKV attrs "id") = true)
    · by_cases hp : (lookupKV attrs "id").getD "" = "placeholder-image"
      · have htype : lookupKV (placeholderAttrs attrs) "type" =
            lookupKV attrs "type" :=
          lookupKV_placeholderAttrs attrs "type" (by decide) (by decide)
        have hid : lookupKV (placeholderAttrs attrs) "id" =
            lookupKV attrs "id" :=
          lookupKV_placeholderAttrs attrs "id" (by decide) (by decide)
        rw [enrichMediaNodes_step_placeholder m ty attrs marks tx content c hb hp]
        rw [enrichMediaNodes_step_placeholder m ty (placeholderAttrs attrs)
          marks tx content c ⟨hb.1, by rw [htype]; exact hb.2.1,
            by rw [hid]; exact hb.2.2⟩ (by rw [hid]; exact hp)]
        rw [placeholderAttrs_idem]
      · cases hf : (possibleKeys ((lookupKV attrs "id").getD "") m c).findSome?
            (fun k => lookupKV m k) with
        | some fm =>
          have htype : lookupKV (mappingAttrs attrs fm) "type" =
              lookupKV attrs "type" :=
            lookupKV_mappingAttrs attrs fm "type"
              (by decide) (by decide) (by decide)
          have hid : lookupKV (mappingAttrs attrs fm) "id" =
              lookupKV attrs "id" :=
            lookupKV_mappingAttrs attrs fm "id"
              (by decide) (by decide) (by decide)
          rw [enrichMediaNodes_step_found m ty attrs marks tx content c fm hb hp hf]
          rw [enrichMediaNodes_step_found m ty (mappingAttrs attrs fm)
            marks tx content c fm ⟨hb.1, by rw [htype]; exact hb.2.1,
              by rw [hid]; exact hb.2.2⟩ (by rw [hid]; exact hp)
            (by rw [hid]; exact hf)]
          rw [mappingAttrs_idem]
        | none =>
          rw [enrichMediaNodes_step_miss m ty attrs marks tx content c hb hp hf]
          exact enrichMediaContent_idem_of m ty attrs marks tx content c (c + 1)
            (fun l hl => enrichMediaList_idem_of m l
              (fun x hx => ih l hl x hx) (c + 1))
            (fun content2 =>
              enrichMediaNodes_step_miss m ty attrs marks tx content2 c hb hp hf)
    · rw [enrichMediaNodes_step_other m ty attrs marks tx content c hb]
      exact enrichMediaContent_idem_of m ty attrs marks tx content c c
        (fun l hl => enrichMediaList_idem_of m l (fun x hx => ih l hl x hx) c)
        (fun content2 =>
          enrichMediaNodes_step_other m ty attrs marks tx content2 c hb)

/-- C2 (confirmed): re-running media resolution on the already-annotated
output of a first run, with the same side payload and owning-document id,
returns exactly the first run's output tree: annotated nodes keep identical
processedUrl/processedType/processedFileName values and no other node
changes. -/
theorem c2_media_idempotent (adf : ADFNode) (filenames : List String)
    (baseUrl : Option String) (pageId : String) :
    processADFWithMedia (processADFWithMedia adf filenames baseUrl pageId)
      filenames baseUrl pageId =
      processADFWithMedia adf filenames baseUrl pageId := by
  unfold processADFWithMedia
  rw [enrichMediaNodes_idem (extractMediaMappings filenames baseUrl pageId) adf 0]

/-- C5 counterexample: the heading with text ` Getting Started ` (edge
whitespace) and no precomputed id derives the anchor id `-getting-started-`:
the final `trim()` runs after whitespace has already been replaced by
hyphens, so edge hyphens are not trimmed, contrary to the claim (which
requires `getting-started`). -/
theorem c5_counterexample :
    truthyS (lookupKV c5EdgeHeading.attrsOf "generatedId") = false ∧
    headingIdOf c5EdgeHeading = "-getting-started-" ∧
    ("-getting-started-" : String) ≠ "getting-started" :=
  ⟨rfl, rfl, by decide⟩

/-- C6 counterexample: with external base `https://h.example/pages/7` (the
constructor accepts it) and local base `http://localhost:3000`, the URL
`https://h.example/pages/7?pageId=42` is in scope and extracts target `42`,
but the reconstructed URL `https://h.example/pages/7/wiki/pages/42` extracts
`7` — the `/pages/<digits>` segment of the base wins the leftmost regex
match — so the round trip does not recover the same target identifier. -/
theorem c6_counterexample :
    c6Cfg.shouldTransform c6Url = true ∧
    extractPageIdFromUrl c6Url = some "42" ∧
    extractPageIdFromUrl (c6Cfg.toConfluenceUrl (c6Cfg.toLocalUrl c6Url)) =
      some "7" ∧
    (some "7" : Option String) ≠ some "42" :=
  ⟨rfl, rfl, rfl, by decide⟩

/-- C7 counterexample: on the empty input string `shouldTransform` is false,
so `toLocalUrl` returns the input unchanged — the empty string. The claim's
"never returns an empty string, for any input string" fails at input `""`. -/
theorem c7_counterexample : goodCfg.toLocalUrl "" = "" := rfl

/-- C8 counterexample: in a tree with three file-kind media nodes — one
resolvable node whose `content` hides a second one, and a third with no id —
the counter ends at 1, not 3: the counter only increments for file-kind media
nodes with a truthy id, and the subtree of a successfully annotated media
node is never visited. -/
theorem c8_counterexample :
    (enrichMediaNodes c8Map c8Tree 0).2 = 1 ∧
    countFileMedia c8Tree = 3 ∧ (1 : Nat) ≠ 3 :=
  ⟨rfl, rfl, by decide⟩

theorem isFileIdMedia_iff (ty : String) (attrs : List (String × String))
    (marks : List ADFMark) (tx : Option String)
    (content : Option (List ADFNode)) :
    isFileIdMedia (.node ty attrs marks tx content) = true ↔
      (ty = "media" ∧ lookupKV attrs "type" = some "file" ∧
        truthyS (lookupKV attrs "id") = true) := by
  simp [isFileIdMedia, ADFNode.typeOf, ADFNode.attrsOf, and_assoc]

theorem mediaLeaves_node (ty : String) (attrs : List (String × String))
    (marks : List ADFMark) (tx : Option String)
    (content : Option (List ADFNode))
    (h : mediaLeaves (.node ty attrs marks tx content) = true) :
    (ty = "media" → content = none ∨ content = some []) ∧
      (∀ l, content = some l → mediaLeavesList l = true) := by
  rw [mediaLeaves.eq_def] at h
  dsimp only at h
  rw [Bool.and_eq_true] at h
  constructor
  · intro hty
    rw [if_pos (by simp [hty])] at h
    cases content with
    | none => exact Or.inl rfl
    | some l =>
      cases l with
      | nil => exact Or.inr rfl
      | cons x xs => simp at h
  · intro l hl
    cases hl
    exact h.2

theorem mediaLeavesList_mem {l : List ADFNode} {x : ADFNode}
    (h : mediaLeavesList l = true) (hx : x ∈ l) : mediaLeaves x = true := by
  induction l with
  | nil => cases hx
  | cons y ys ih =>
    rw [mediaLeavesList] at h
    rw [Bool.and_eq_true] at h
    cases hx with
    | head => exact h.1
    | tail _ hmem => exact ih h.2 hmem

theorem countFileIdMedia_none (ty : String) (attrs : List (String × String))
    (marks : List ADFMark) (tx : Option String) :
    countFileIdMedia (.node ty attrs marks tx none) =
      (if isFileIdMedia (.node ty attrs marks tx none) = true then 1 else 0) := by
  rw [countFileIdMedia.eq_def]
  simp

theorem countFileIdMedia_some (ty : String) (attrs : List (String × String))
    (marks : List ADFMark) (tx : Option String) (l : List ADFNode) :
    countFileIdMedia (.node ty attrs marks tx (some l)) =
      (if isFileIdMedia (.node ty attrs marks tx (some l)) = true then 1 else 0) +
        countFileIdMediaList l := by
  rw [countFileIdMedia.eq_def]

theorem enrichMediaList_count (m : List (String × MediaMapping))
    (l : List ADFNode)
    (h : ∀ x ∈ l, ∀ c, mediaLeaves x = true →
      (enrichMediaNodes m x c).2 = c + countFileIdMedia x)
    (hl : mediaLeavesList l = true) :
    ∀ c, (enrichMediaList m l c).2 = c + countFileIdMediaList l := by
  induction l with
  | nil => intro c; simp [enrichMediaList, countFileIdMediaList]
  | cons n rest ih =>
    intro c
    rw [countFileIdMediaList]
    rw [mediaLeavesList, Bool.and_eq_true] at hl
    have hn := h n (by simp) c hl.1
    have hrest := ih (fun x hx => h x (by simp [hx])) hl.2
    simp only [enrichMediaList]
    rw [hrest, hn]
    omega

theorem c8_count_aux (m : List (String × MediaMapping)) :
    ∀ n, ∀ c, mediaLeaves n = true →
      (enrichMediaNodes m n c).2 = c + countFileIdMedia n := by
  intro n
  induction n using adfInd with
  | step ty attrs marks tx content ih =>
    intro c hml
    have hleaf := mediaLeaves_node ty attrs marks tx content hml
    by_cases hb : (ty = "media" ∧ lookupKV attrs "type" = some "file" ∧
        truthyS (lookupKV attrs "id") = true)
    · by_cases hp : (lookupKV attrs "id").getD "" = "placeholder-image"
      · rw [enrichMediaNodes_step_placeholder m ty attrs marks tx content c hb hp]
        rcases hleaf.1 hb.1 with hc | hc <;> subst hc
        · rw [countFileIdMedia_none, if_pos
            ((isFileIdMedia_iff ty attrs marks tx none).2 hb)]
        · rw [countFileIdMedia_some, if_pos
            ((isFileIdMedia_iff ty attrs marks tx (some [])).2 hb)]
          simp [countFileIdMediaList]
      · cases hf : (possibleKeys ((lookupKV attrs "id").getD "") m c).findSome?
            (fun k => lookupKV m k) with
        | some fm =>
          rw [enrichMediaNodes_step_found m ty attrs marks tx content c fm hb hp hf]
          rcases hleaf.1 hb.1 with hc | hc <;> subst hc
          · rw [countFileIdMedia_none, if_pos
              ((isFileIdMedia_iff ty attrs marks tx none).2 hb)]
          · rw [countFileIdMedia_some, if_pos
              ((isFileIdMedia_iff ty attrs marks tx (some [])).2 hb)]
            simp [countFileIdMediaList]
        | none =>
          rw [enrichMediaNodes_step_miss m ty attrs marks tx content c hb hp hf]
          rcases hleaf.1 hb.1 with hc | hc <;> subst hc
          · rw [countFileIdMedia_none, if_pos
              ((isFileIdMedia_iff ty attrs marks tx none).2 hb)]
            simp [enrichMediaContent]
          · rw [countFileIdMedia_some, if_pos
              ((isFileIdMedia_iff ty attrs marks tx (some [])).2 hb)]
            simp [enrichMediaContent, enrichMediaList, countFileIdMediaList]
    · rw [enrichMediaNodes_step_other m ty attrs marks tx content c hb]
      cases content with
      | none =>
        rw [countFileIdMedia_none, if_neg (fun hx =>
          hb ((isFileIdMedia_iff ty attrs marks tx none).1 hx))]
        simp [enrichMediaContent]
      | some l =>
        rw [countFileIdMedia_some, if_neg (fun hx =>
          hb ((isFileIdMedia_iff ty attrs marks tx (some l)).1 hx))]
        simp only [enrichMediaContent]
        rw [enrichMediaList_count m l (fun x hx c2 hx2 => ih l rfl x hx c2 hx2)
          (hleaf.2 l rfl) c]
        omega

/-- C8 (corrected): the counter increments exactly once per visited media node
of file kind with a truthy id (the guard of the media branch), and the subtree
of an annotated media node is not visited; hence over any tree whose media
nodes are leaves — as in real ADF documents — the final counter equals the
number of file-kind media nodes carrying a truthy id, whether or not their
resolution succeeded. -/
theorem c8_amended (m : List (String × MediaMapping)) (n : ADFNode) (c : Nat)
    (h : mediaLeaves n = true) :
    (enrichMediaNodes m n c).2 = c + countFileIdMedia n :=
  c8_count_aux m n c h

/-- C8 witness: the amended statement evaluated on the C1 scenario tree (two
file-kind media nodes with ids, both leaves): the counter ends at 2. -/
theorem c8_amended_witness :
    mediaLeaves c1Tree = true ∧
    (enrichMediaNodes c8Map c1Tree 0).2 = 0 + countFileIdMedia c1Tree ∧
    countFileIdMedia c1Tree = 2 :=
  ⟨rfl, c8_amended c8Map c1Tree 0 rfl, rfl⟩

theorem collapseWsAux_no_ws :
    ∀ (b : Bool) (l : List Char), ∀ c ∈ collapseWsAux b l, jsWs c = false := by
  intro b l
  induction l generalizing b with
  | nil => intro c hc; cases hc
  | cons x t ih =>
    intro c hc
    rw [collapseWsAux] at hc
    by_cases hx : jsWs x = true
    · rw [if_pos hx] at hc
      cases b with
      | true => exact ih true c (by simpa using hc)
      | false =>
        simp only [Bool.false_eq_true, if_false] at hc
        cases hc with
        | head => decide
        | tail _ hmem => exact ih true c hmem
    · rw [if_neg hx] at hc
      cases hc with
      | head => exact Bool.eq_false_iff.2 hx
      | tail _ hmem => exact ih false c hmem

theorem dropWhile_eq_self_of_all_false {p : Char → Bool} (l : List Char)
    (h : ∀ c ∈ l, p c = false) : l.dropWhile p = l := by
  cases l with
  | nil => rfl
  | cons x t =>
    rw [List.dropWhile_cons, if_neg (by rw [h x (by simp)]; simp)]

theorem jsTrim_of_no_ws (l : List Char) (h : ∀ c ∈ l, jsWs c = false) :
    jsTrim (String.mk l) = String.mk l := by
  unfold jsTrim
  have h1 : l.dropWhile jsWs = l := dropWhile_eq_self_of_all_false l h
  show String.mk (((l.dropWhile jsWs).reverse.dropWhile jsWs).reverse) =
    String.mk l
  rw [h1]
  rw [dropWhile_eq_self_of_all_false l.reverse (fun c hc =>
    h c (List.mem_reverse.1 hc))]
  rw [List.reverse_reverse]

/-- C5 (corrected): for every heading node without a precomputed id, the
derived anchor id is the concatenated direct text lower-cased, stripped of
characters outside `[a-z0-9\s-]`, with whitespace runs collapsed to single
hyphens, and no edge trimming: the code's final `trim()` removes only
whitespace, none of which survives the hyphen replacement, so edge hyphens
are kept. (Heading text `Getting Started!!` still derives `getting-started`,
as the witness evaluates.) -/
theorem c5_amended (node : ADFNode)
    (h : truthyS (lookupKV node.attrsOf "generatedId") = false) :
    headingIdOf node = specSlugNoTrim (headingTextOf node.contentOf) := by
  unfold headingIdOf
  rw [if_neg (by rw [h]; simp)]
  unfold deriveHeadingId specSlugNoTrim collapseWsRuns
  exact jsTrim_of_no_ws _ (collapseWsAux_no_ws false _)

/-- C5 witness: the spec's example evaluated through the amended theorem —
heading text `Getting Started!!` derives exactly `getting-started`. -/
theorem c5_amended_witness :
    truthyS (lookupKV c5ExampleHeading.attrsOf "generatedId") = false ∧
    headingIdOf c5ExampleHeading = specSlugNoTrim "Getting Started!!" ∧
    specSlugNoTrim "Getting Started!!" = "getting-started" :=
  ⟨rfl, c5_amended c5ExampleHeading rfl, rfl⟩

/-- C7 (corrected): for every URL that does not begin with the configured
external base or from which no target id can be extracted, `shouldTransform`
is false and `toLocalUrl` returns the input unchanged; `toLocalUrl` is total
and returns an empty string only for the empty input. -/
theorem c7_amended (t : UrlTransformer) (u : String) :
    ((jsStartsWith u t.confluenceBaseUrl = false ∨
        extractPageIdFromUrl u = none) →
      t.shouldTransform u = false ∧ t.toLocalUrl u = u) ∧
    (u ≠ "" → t.toLocalUrl u ≠ "") := by
  constructor
  · intro h
    have hs : t.shouldTransform u = false := by
      unfold UrlTransformer.shouldTransform
      rcases h with h | h
      · rw [h]
        simp
      · rw [h]
        simp
    refine ⟨hs, ?_⟩
    unfold UrlTransformer.toLocalUrl
    rw [if_neg (by rw [hs]; simp)]
  · intro hu
    unfold UrlTransformer.toLocalUrl
    by_cases hs : t.shouldTransform u = true
    · rw [if_pos hs]
      cases he : extractPageIdFromUrl u with
      | none => exact hu
      | some pid =>
        dsimp only
        by_cases hp : pid = ""
        · rw [if_pos hp]
          exact hu
        · rw [if_neg hp]
          intro hcontra
          have hdata := congrArg String.data hcontra
          simp [String.data_append] at hdata
    · rw [if_neg hs]
      exact hu

/-- C7 witness: the amended theorem evaluated at a URL outside the base
(identity fallback) and at an in-scope URL (nonempty output). -/
theorem c7_amended_witness :
    goodCfg.shouldTransform "https://other.example/x" = false ∧
    goodCfg.toLocalUrl "https://other.example/x" = "https://other.example/x" ∧
    goodCfg.toLocalUrl "https://x.atlassian.net/wiki/spaces/S/pages/42/T" ≠
      "" := by
  refine ⟨((c7_amended goodCfg "https://other.example/x").1 (Or.inl rfl)).1,
    ((c7_amended goodCfg "https://other.example/x").1 (Or.inl rfl)).2,
    (c7_amended goodCfg
      "https://x.atlassian.net/wiki/spaces/S/pages/42/T").2 (by decide)⟩

theorem p1MatchAt_digits {l ds : List Char} (h : p1MatchAt l = some ds) :
    ds ≠ [] ∧ ds.all jsDigit = true := by
  simp only [p1MatchAt] at h
  split at h
  · split at h
    · cases h
    · split at h
      · cases h
        refine ⟨by assumption, ?_⟩
        rw [List.all_eq_true]
        intro c hc
        exact List.mem_takeWhile_imp hc
      · cases h
        refine ⟨by assumption, ?_⟩
        rw [List.all_eq_true]
        intro c hc
        exact List.mem_takeWhile_imp hc
      · cases h
  · cases h

theorem p1First_digits {l ds : List Char} (h : p1First l = some ds) :
    ds ≠ [] ∧ ds.all jsDigit = true := by
  induction l with
  | nil => cases h
  | cons c t ih =>
    rw [p1First] at h
    cases hm : p1MatchAt (c :: t) with
    | some ds2 =>
      rw [hm] at h
      cases h
      exact p1MatchAt_digits hm
    | none =>
      rw [hm] at h
      exact ih h

theorem paramMatchAt_digits {key l ds : List Char}
    (h : paramMatchAt key l = some ds) : ds ≠ [] ∧ ds.all jsDigit = true := by
  cases l with
  | nil => cases h
  | cons c rest =>
    simp only [paramMatchAt] at h
    split at h
    · split at h
      · cases h
      · cases h
        refine ⟨by assumption, ?_⟩
        rw [List.all_eq_true]
        intro x hx
        exact List.mem_takeWhile_imp hx
    · cases h

theorem paramFirst_digits {key l ds : List Char}
    (h : paramFirst key l = some ds) : ds ≠ [] ∧ ds.all jsDigit = true := by
  induction l with
  | nil => cases h
  | cons c t ih =>
    rw [paramFirst] at h
    cases hm : paramMatchAt key (c :: t) with
    | some ds2 =>
      rw [hm] at h
      cases h
      exact paramMatchAt_digits hm
    | none =>
      rw [hm] at h
      exact ih h

theorem extractPageIdFromUrl_digits {url : String} {pid : String}
    (h : extractPageIdFromUrl url = some pid) :
    pid ≠ "" ∧ pid.data.all jsDigit = true := by
  unfold extractPageIdFromUrl at h
  have hmk : ∀ ds : List Char, String.mk ds = pid → ds ≠ [] ∧
      ds.all jsDigit = true → pid ≠ "" ∧ pid.data.all jsDigit = true := by
    intro ds hds hprop
    subst hds
    refine ⟨?_, hprop.2⟩
    intro hempty
    apply hprop.1
    have := congrArg String.data hempty
    simpa using this
  split at h
  · exact hmk _ (Option.some_inj.1 h) (p1First_digits (by assumption))
  · split at h
    · exact hmk _ (Option.some_inj.1 h) (paramFirst_digits (by assumption))
    · split at h
      · exact hmk _ (Option.some_inj.1 h) (paramFirst_digits (by assumption))
      · cases h

theorem addGroup_keys (m : List (String × List String)) (pid u : String) :
    (addGroup m pid u).map Prod.fst =
      if pid ∈ m.map Prod.fst then m.map Prod.fst
      else m.map Prod.fst ++ [pid] := by
  induction m with
  | nil => simp [addGroup]
  | cons p t ih =>
    obtain ⟨k, ws⟩ := p
    by_cases h : k = pid
    · subst h
      simp [addGroup]
    · have h3 : ¬ pid = k := fun hh => h hh.symm
      rw [addGroup, if_neg h]
      by_cases h2 : pid ∈ t.map Prod.fst
      · simp [ih, h2, h3]
      · simp [ih, h2, h3]

theorem pageIdStep_keys_nodup (urls : List String)
    (m : List (String × List String)) (h : (m.map Prod.fst).Nodup) :
    ((urls.foldl (fun m u =>
      match extractPageIdFromUrl u with
      | some pid => addGroup m pid u
      | none => m) m).map Prod.fst).Nodup := by
  induction urls generalizing m with
  | nil => exact h
  | cons u rest ih =>
    rw [List.foldl_cons]
    apply ih
    cases he : extractPageIdFromUrl u with
    | none => exact h
    | some pid =>
      rw [addGroup_keys]
      by_cases hm : pid ∈ m.map Prod.fst
      · rw [if_pos hm]
        exact h
      · rw [if_neg hm]
        simp [List.nodup_append, h, hm]

theorem pageIdMapOf_keys_nodup (urls : List String) :
    ((pageIdMapOf urls).map Prod.fst).Nodup :=
  pageIdStep_keys_nodup urls [] (by simp)

theorem addGroup_keys_mono (m : List (String × List String)) (pid u k : String)
    (h : k ∈ m.map Prod.fst) : k ∈ (addGroup m pid u).map Prod.fst := by
  rw [addGroup_keys]
  split
  · exact h
  · simp [h]

theorem addGroup_key_self (m : List (String × List String)) (pid u : String) :
    pid ∈ (addGroup m pid u).map Prod.fst := by
  rw [addGroup_keys]
  split
  · assumption
  · simp

theorem pageIdStep_keys_mono (urls : List String)
    (m : List (String × List String)) (k : String) (h : k ∈ m.map Prod.fst) :
    k ∈ (urls.foldl (fun m u =>
      match extractPageIdFromUrl u with
      | some pid => addGroup m pid u
      | none => m) m).map Prod.fst := by
  induction urls generalizing m with
  | nil => exact h
  | cons u rest ih =>
    rw [List.foldl_cons]
    apply ih
    cases he : extractPageIdFromUrl u with
    | none => exact h
    | some pid => exact addGroup_keys_mono m pid u k h

theorem pageIdStep_mem_keys (urls : List String)
    (m : List (String × List String)) (u i : String) (hu : u ∈ urls)
    (he : extractPageIdFromUrl u = some i) :
    i ∈ (urls.foldl (fun m u =>
      match extractPageIdFromUrl u with
      | some pid => addGroup m pid u
      | none => m) m).map Prod.fst := by
  induction urls generalizing m with
  | nil => cases hu
  | cons u0 rest ih =>
    rw [List.foldl_cons]
    cases hu with
    | head =>
      rw [he]
      exact pageIdStep_keys_mono rest _ i (addGroup_key_self m i u)
    | tail _ hmem => exact ih _ hmem

theorem mem_pageIdMapOf_keys (urls : List String) (u i : String)
    (hu : u ∈ urls) (he : extractPageIdFromUrl u = some i) :
    i ∈ (pageIdMapOf urls).map Prod.fst :=
  pageIdStep_mem_keys urls [] u i hu he

theorem addGroup_sound (m : List (String × List String)) (pid u : String)
    (hm : ∀ p us, (p, us) ∈ m → ∀ x ∈ us, extractPageIdFromUrl x = some p)
    (he : extractPageIdFromUrl u = some pid) :
    ∀ p us, (p, us) ∈ addGroup m pid u → ∀ x ∈ us,
      extractPageIdFromUrl x = some p := by
  induction m with
  | nil =>
    intro p us hin x hx
    simp [addGroup] at hin
    obtain ⟨h1, h2⟩ := hin
    subst h1
    subst h2
    simp at hx
    subst hx
    exact he
  | cons q t ih =>
    obtain ⟨k, ws⟩ := q
    intro p us hin x hx
    rw [addGroup] at hin
    by_cases hk : k = pid
    · rw [if_pos hk] at hin
      rcases List.mem_cons.1 hin with hh | hh
      · have h1 : p = k := congrArg Prod.fst hh
        have h2 : us = ws ++ [u] := congrArg Prod.snd hh
        subst h1
        subst h2
        rcases List.mem_append.1 hx with hx2 | hx2
        · exact hm _ ws (List.mem_cons_self _ _) x hx2
        · have hxu : x = u := by simpa using hx2
          subst hxu
          rw [he, hk]
      · exact hm p us (List.mem_cons_of_mem _ hh) x hx
    · rw [if_neg hk] at hin
      rcases List.mem_cons.1 hin with hh | hh
      · have h1 : p = k := congrArg Prod.fst hh
        have h2 : us = ws := congrArg Prod.snd hh
        subst h1
        subst h2
        exact hm _ _ (List.mem_cons_self _ _) x hx
      · exact ih (fun p2 us2 h2 => hm p2 us2 (List.mem_cons_of_mem _ h2))
          p us hh x hx

theorem pageIdStep_sound (urls : List String)
    (m : List (String × List String))
    (hm : ∀ p us, (p, us) ∈ m → ∀ x ∈ us, extractPageIdFromUrl x = some p) :
    ∀ p us, (p, us) ∈ urls.foldl (fun m u =>
      match extractPageIdFromUrl u with
      | some pid => addGroup m pid u
      | none => m) m → ∀ x ∈ us, extractPageIdFromUrl x = some p := by
  induction urls generalizing m with
  | nil => exact hm
  | cons u rest ih =>
    rw [List.foldl_cons]
    cases he : extractPageIdFromUrl u with
    | none => exact ih m hm
    | some pid => exact ih _ (addGroup_sound m pid u hm he)

theorem pageIdMapOf_sound (urls : List String) :
    ∀ p us, (p, us) ∈ pageIdMapOf urls → ∀ x ∈ us,
      extractPageIdFromUrl x = some p :=
  pageIdStep_sound urls [] (by intro p us h; cases h)

theorem addGroup_group_mono (m : List (String × List String))
    (pid2 u2 pid u : String) (h : ∃ us, (pid, us) ∈ m ∧ u ∈ us) :
    ∃ us, (pid, us) ∈ addGroup m pid2 u2 ∧ u ∈ us := by
  induction m with
  | nil =>
    obtain ⟨us, hin, _⟩ := h
    cases hin
  | cons q t ih =>
    obtain ⟨k, ws⟩ := q
    obtain ⟨us, hin, hu⟩ := h
    rw [addGroup]
    by_cases hk : k = pid2
    · rw [if_pos hk]
      rcases List.mem_cons.1 hin with hh | hh
      · have h1 : pid = k := congrArg Prod.fst hh
        have h2 : us = ws := congrArg Prod.snd hh
        subst h1
        subst h2
        exact ⟨us ++ [u2], List.mem_cons_self _ _, List.mem_append.2 (Or.inl hu)⟩
      · exact ⟨us, List.mem_cons_of_mem _ hh, hu⟩
    · rw [if_neg hk]
      rcases List.mem_cons.1 hin with hh | hh
      · have h1 : pid = k := congrArg Prod.fst hh
        have h2 : us = ws := congrArg Prod.snd hh
        subst h1
        subst h2
        exact ⟨us, List.mem_cons_self _ _, hu⟩
      · obtain ⟨us2, hin2, hu2⟩ := ih ⟨us, hh, hu⟩
        exact ⟨us2, List.mem_cons_of_mem _ hin2, hu2⟩

theorem addGroup_mem_self (m : List (String × List String)) (pid u : String) :
    ∃ us, (pid, us) ∈ addGroup m pid u ∧ u ∈ us := by
  induction m with
  | nil => exact ⟨[u], by simp [addGroup], by simp⟩
  | cons q t ih =>
    obtain ⟨k, ws⟩ := q
    rw [addGroup]
    by_cases hk : k = pid
    · rw [if_pos hk]
      subst hk
      exact ⟨ws ++ [u], List.mem_cons_self _ _, by simp⟩
    · rw [if_neg hk]
      obtain ⟨us, hin, hu⟩ := ih
      exact ⟨us, List.mem_cons_of_mem _ hin, hu⟩

theorem pageIdStep_group_mono (urls : List String)
    (m : List (String × List String)) (pid u : String)
    (h : ∃ us, (pid, us) ∈ m ∧ u ∈ us) :
    ∃ us, (pid, us) ∈ urls.foldl (fun m u =>
      match extractPageIdFromUrl u with
      | some pid => addGroup m pid u
      | none => m) m ∧ u ∈ us := by
  induction urls generalizing m with
  | nil => exact h
  | cons u0 rest ih =>
    rw [List.foldl_cons]
    cases he : extractPageIdFromUrl u0 with
    | none => exact ih m h
    | some pid0 => exact ih _ (addGroup_group_mono m pid0 u0 pid u h)

theorem pageIdMapOf_complete (urls : List String) (u i : String)
    (hu : u ∈ urls) (he : extractPageIdFromUrl u = some i) :
    ∃ us, (i, us) ∈ pageIdMapOf urls ∧ u ∈ us := by
  unfold pageIdMapOf
  have haux : ∀ (rest : List String) (m : List (String × List String)),
      u ∈ rest →
      ∃ us, (i, us) ∈ rest.foldl (fun m u =>
        match extractPageIdFromUrl u with
        | some pid => addGroup m pid u
        | none => m) m ∧ u ∈ us := by
    intro rest
    induction rest with
    | nil => intro m h; cases h
    | cons u0 t ih =>
      intro m hmem
      rw [List.foldl_cons]
      cases hmem with
      | head =>
        rw [he]
        exact pageIdStep_group_mono t _ i u (addGroup_mem_self m i u)
      | tail _ hmem2 =>
        cases he0 : extractPageIdFromUrl u0 with
        | none => exact ih m hmem2
        | some pid0 => exact ih _ hmem2
  exact haux urls [] hu

theorem fetchPageTitles_eq_bind (groups : List (String × List String))
    (fetch : String → Option String) (acc : List EnrichedLinkData) :
    groups.foldl (fun acc e =>
      match fetch e.1 with
      | some title => acc ++ e.2.map (fun u => ⟨e.1, title, u⟩)
      | none => acc) acc =
    acc ++ groups.flatMap (fun e =>
      match fetch e.1 with
      | some title => e.2.map (fun u => (⟨e.1, title, u⟩ : EnrichedLinkData))
      | none => []) := by
  induction groups generalizing acc with
  | nil => simp
  | cons g t ih =>
    rw [List.foldl_cons, List.flatMap_cons]
    cases hf : fetch g.1 with
    | none =>
      rw [ih]
      simp
    | some title =>
      rw [ih]
      simp

theorem mem_fetchPageTitles (urls : List String)
    (fetch : String → Option String) (e : EnrichedLinkData) :
    e ∈ fetchPageTitles urls fetch ↔
      ∃ us, (e.pageId, us) ∈ pageIdMapOf urls ∧
        fetch e.pageId = some e.title ∧ e.originalUrl ∈ us := by
  unfold fetchPageTitles
  rw [fetchPageTitles_eq_bind]
  simp only [List.nil_append, List.mem_flatMap]
  constructor
  · rintro ⟨⟨pid, us⟩, hin, hmem⟩
    cases hf : fetch pid with
    | none =>
      rw [hf] at hmem
      cases hmem
    | some title =>
      rw [hf] at hmem
      simp only [List.mem_map] at hmem
      obtain ⟨u, hu, he⟩ := hmem
      subst he
      exact ⟨us, hin, hf, hu⟩
  · rintro ⟨us, hin, hf, hu⟩
    refine ⟨(e.pageId, us), hin, ?_⟩
    rw [hf]
    simp only [List.mem_map]
    exact ⟨e.originalUrl, hu, rfl⟩

theorem lookup_linksFold_preserved (rest : List EnrichedLinkData)
    (k : String) (e : EnrichedLinkData)
    (hrest : ∀ e2 ∈ rest, e2.originalUrl = k → e2 = e) :
    ∀ m0 : List (String × EnrichedLinkData), lookupKV m0 k = some e →
      lookupKV (rest.foldl (fun m d => upsertKV m d.originalUrl d) m0) k =
        some e := by
  induction rest with
  | nil => intro m0 hm; exact hm
  | cons d t ih =>
    intro m0 hm
    rw [List.foldl_cons]
    have ih2 := ih (fun e2 h2 => hrest e2 (List.mem_cons_of_mem _ h2))
    by_cases hd : d.originalUrl = k
    · have hde : d = e := hrest d (List.mem_cons_self _ _) hd
      apply ih2
      rw [← hd, lookupKV_upsertKV_self, hde]
    · apply ih2
      rw [lookupKV_upsertKV_ne _ _ _ _ (fun hh => hd hh.symm)]
      exact hm

theorem lookup_linksFold_complete (res : List EnrichedLinkData)
    (e : EnrichedLinkData)
    (huniq : ∀ e2 ∈ res, e2.originalUrl = e.originalUrl → e2 = e)
    (he : e ∈ res) :
    ∀ m0 : List (String × EnrichedLinkData),
      lookupKV (res.foldl (fun m d => upsertKV m d.originalUrl d) m0)
        e.originalUrl = some e := by
  induction res with
  | nil => cases he
  | cons d t ih =>
    intro m0
    rw [List.foldl_cons]
    cases he with
    | head =>
      exact lookup_linksFold_preserved t _ e
        (fun e2 h2 => huniq e2 (List.mem_cons_of_mem _ h2)) _
        (lookupKV_upsertKV_self m0 _ _)
    | tail _ hmem =>
      by_cases hd : d.originalUrl = e.originalUrl
      · have hde : d = e := huniq d (List.mem_cons_self _ _) hd
        subst hde
        exact lookup_linksFold_preserved t _ d
          (fun e2 h2 => huniq e2 (List.mem_cons_of_mem _ h2)) _
          (lookupKV_upsertKV_self m0 _ _)
      · exact ih (fun e2 h2 => huniq e2 (List.mem_cons_of_mem _ h2)) hmem _

theorem lookup_linksFold_none (res : List EnrichedLinkData) (k : String)
    (hres : ∀ e2 ∈ res, e2.originalUrl ≠ k) :
    ∀ m0 : List (String × EnrichedLinkData), lookupKV m0 k = none →
      lookupKV (res.foldl (fun m d => upsertKV m d.originalUrl d) m0) k =
        none := by
  induction res with
  | nil => intro m0 hm; exact hm
  | cons d t ih =>
    intro m0 hm
    rw [List.foldl_cons]
    apply ih (fun e2 h2 => hres e2 (List.mem_cons_of_mem _ h2))
    rw [lookupKV_upsertKV_ne _ _ _ _
      (fun hh => hres d (List.mem_cons_self _ _) hh.symm)]
    exact hm

theorem lookupKV_linksMapOf_eq (urls : List String)
    (fetch : String → Option String) (u i ttl : String)
    (hu : u ∈ urls) (he : extractPageIdFromUrl u = some i)
    (hf : fetch i = some ttl) :
    lookupKV (linksMapOf (fetchPageTitles urls fetch)) u =
      some ⟨i, ttl, u⟩ := by
  obtain ⟨us, hin, hmem⟩ := pageIdMapOf_complete urls u i hu he
  have hres : (⟨i, ttl, u⟩ : EnrichedLinkData) ∈ fetchPageTitles urls fetch :=
    (mem_fetchPageTitles urls fetch _).2 ⟨us, hin, hf, hmem⟩
  have huniq : ∀ e2 ∈ fetchPageTitles urls fetch,
      e2.originalUrl = u → e2 = ⟨i, ttl, u⟩ := by
    intro e2 h2 hk
    obtain ⟨us2, hin2, hf2, hmem2⟩ := (mem_fetchPageTitles urls fetch e2).1 h2
    have hsound : extractPageIdFromUrl e2.originalUrl = some e2.pageId :=
      pageIdMapOf_sound urls _ _ hin2 _ hmem2
    rw [hk, he] at hsound
    have hpid : i = e2.pageId := Option.some_inj.1 hsound
    rw [← hpid] at hf2
    rw [hf] at hf2
    have httl : ttl = e2.title := Option.some_inj.1 hf2
    obtain ⟨p2, t2, o2⟩ := e2
    simp only at hk hpid httl
    rw [hk, ← hpid, ← httl]
  exact lookup_linksFold_complete _ ⟨i, ttl, u⟩ huniq hres []

theorem lookupKV_linksMapOf_none (urls : List String)
    (fetch : String → Option String) (u i : String)
    (he : extractPageIdFromUrl u = some i) (hf : fetch i = none) :
    lookupKV (linksMapOf (fetchPageTitles urls fetch)) u = none := by
  refine lookup_linksFold_none _ u ?_ [] rfl
  intro e2 h2 hk
  obtain ⟨us2, hin2, hf2, hmem2⟩ := (mem_fetchPageTitles urls fetch e2).1 h2
  have hsound : extractPageIdFromUrl e2.originalUrl = some e2.pageId :=
    pageIdMapOf_sound urls _ _ hin2 _ hmem2
  rw [hk, he] at hsound
  have hpid : i = e2.pageId := Option.some_inj.1 hsound
  rw [← hpid] at hf2
  rw [hf] at hf2
  cases hf2

theorem mem_addUrl_self (urls : List String) (u : String) :
    u ∈ addUrl urls u := by
  unfold addUrl
  by_cases h : u ∈ urls
  · rw [if_pos h]
    exact h
  · rw [if_neg h]
    simp

theorem mem_addUrl_mono (urls : List String) (u v : String) (h : u ∈ urls) :
    u ∈ addUrl urls v := by
  unfold addUrl
  by_cases hv : v ∈ urls
  · rw [if_pos hv]
    exact h
  · rw [if_neg hv]
    simp [h]

theorem mem_cardUrlStep_mono (base ty : String)
    (attrs : List (String × String)) (urls : List String) (u : String)
    (h : u ∈ urls) : u ∈ cardUrlStep base ty attrs urls := by
  unfold cardUrlStep
  split
  · split
    · exact mem_addUrl_mono urls u _ h
    · exact h
  · exact h

theorem mem_markUrlStep_mono (base : String) (mk : ADFMark)
    (urls : List String) (u : String) (h : u ∈ urls) :
    u ∈ markUrlStep base mk urls := by
  unfold markUrlStep
  split
  · split
    · exact mem_addUrl_mono urls u _ h
    · exact h
  · exact h

theorem mem_collectMarkUrls_mono (base : String) (marks : List ADFMark)
    (urls : List String) (u : String) (h : u ∈ urls) :
    u ∈ collectMarkUrls base marks urls := by
  induction marks generalizing urls with
  | nil => exact h
  | cons mk rest ih =>
    rw [collectMarkUrls]
    exact ih _ (mem_markUrlStep_mono base mk urls u h)

theorem mem_extractConfluenceUrlsList_mono_of (base : String)
    (l : List ADFNode)
    (h : ∀ x ∈ l, ∀ urls u, u ∈ urls → u ∈ extractConfluenceUrls base x urls) :
    ∀ urls u, u ∈ urls → u ∈ extractConfluenceUrlsList base l urls := by
  induction l with
  | nil =>
    intro urls u hu
    rw [extractConfluenceUrlsList]
    exact hu
  | cons x xs ih =>
    intro urls u hu
    rw [extractConfluenceUrlsList]
    exact ih (fun y hy => h y (List.mem_cons_of_mem _ hy)) _ u
      (h x (List.mem_cons_self _ _) urls u hu)

theorem mem_extractConfluenceUrls_mono (base : String) :
    ∀ n : ADFNode, ∀ urls u, u ∈ urls →
      u ∈ extractConfluenceUrls base n urls := by
  intro n
  induction n using adfInd with
  | step ty attrs marks tx content ih =>
    intro urls u h
    rw [extractConfluenceUrls.eq_def]
    dsimp only
    have h1 := mem_collectMarkUrls_mono base marks _ u
      (mem_cardUrlStep_mono base ty attrs urls u h)
    cases content with
    | none => exact h1
    | some l =>
      exact mem_extractConfluenceUrlsList_mono_of base l
        (fun x hx => ih l rfl x hx) _ u h1

theorem mem_extractConfluenceUrlsList_mono (base : String) (l : List ADFNode) :
    ∀ urls u, u ∈ urls → u ∈ extractConfluenceUrlsList base l urls :=
  mem_extractConfluenceUrlsList_mono_of base l
    (fun x _ => mem_extractConfluenceUrls_mono base x)

theorem mem_collectList_of_child (base : String) (l : List ADFNode)
    (c0 : ADFNode) (hc : c0 ∈ l) (u : String)
    (hall : ∀ urls, u ∈ extractConfluenceUrls base c0 urls) :
    ∀ urls, u ∈ extractConfluenceUrlsList base l urls := by
  induction l with
  | nil => cases hc
  | cons x xs ih =>
    intro urls
    rw [extractConfluenceUrlsList]
    cases hc with
    | head =>
      exact mem_extractConfluenceUrlsList_mono base xs _ u (hall urls)
    | tail _ hmem => exact ih hmem _

theorem mem_collectMarkUrls_of_mark (base : String) (marks : List ADFMark)
    (mk : ADFMark) (hmk : mk ∈ marks) (u : String)
    (hty : mk.type = "link") (htr : truthyS (lookupKV mk.attrs "href") = true)
    (hu : (lookupKV mk.attrs "href").getD "" = u)
    (hconf : isConfluenceUrl u base = true) :
    ∀ urls, u ∈ collectMarkUrls base marks urls := by
  induction marks with
  | nil => cases hmk
  | cons mk0 rest ih =>
    intro urls
    rw [collectMarkUrls]
    cases hmk with
    | head =>
      apply mem_collectMarkUrls_mono base rest _ u
      unfold markUrlStep
      rw [if_pos ⟨hty, htr⟩, hu, if_pos hconf]
      exact mem_addUrl_self urls u
    | tail _ hmem => exact ih hmem _

theorem collect_complete_card (base u : String) :
    ∀ {n t : ADFNode}, Subnode n t →
      n.typeOf = "inlineCard" → truthyS (lookupKV n.attrsOf "url") = true →
      (lookupKV n.attrsOf "url").getD "" = u →
      isConfluenceUrl u base = true →
      ∀ urls, u ∈ extractConfluenceUrls base t urls := by
  intro n t hsub
  induction hsub with
  | refl =>
    intro hty htr hu hconf urls
    obtain ⟨ty, attrs, marks, tx, content⟩ := n
    rw [ADFNode.typeOf] at hty
    rw [ADFNode.attrsOf] at htr hu
    rw [extractConfluenceUrls.eq_def]
    dsimp only
    have h1 : u ∈ cardUrlStep base ty attrs urls := by
      unfold cardUrlStep
      rw [if_pos ⟨hty, htr⟩, hu, if_pos hconf]
      exact mem_addUrl_self urls u
    have h2 := mem_collectMarkUrls_mono base marks _ u h1
    cases content with
    | none => exact h2
    | some l => exact mem_extractConfluenceUrlsList_mono base l _ u h2
  | step hc hm hsub2 ih =>
    intro hty htr hu hconf urls
    rename_i c t2 l
    obtain ⟨ty, attrs, marks, tx, content⟩ := t2
    rw [ADFNode.contentOf] at hc
    subst hc
    rw [extractConfluenceUrls.eq_def]
    dsimp only
    exact mem_collectList_of_child base l c hm u
      (fun urls2 => ih hty htr hu hconf urls2) _

theorem collect_complete_mark (base u : String) :
    ∀ {n t : ADFNode}, Subnode n t →
      ∀ mk ∈ n.marksOf, mk.type = "link" →
      truthyS (lookupKV mk.attrs "href") = true →
      (lookupKV mk.attrs "href").getD "" = u →
      isConfluenceUrl u base = true →
      ∀ urls, u ∈ extractConfluenceUrls base t urls := by
  intro n t hsub
  induction hsub with
  | refl =>
    intro mk hmk hty htr hu hconf urls
    obtain ⟨ty, attrs, marks, tx, content⟩ := n
    rw [ADFNode.marksOf] at hmk
    rw [extractConfluenceUrls.eq_def]
    dsimp only
    have h2 := mem_collectMarkUrls_of_mark base marks mk hmk u hty htr hu hconf
      (cardUrlStep base ty attrs urls)
    cases content with
    | none => exact h2
    | some l => exact mem_extractConfluenceUrlsList_mono base l _ u h2
  | step hc hm hsub2 ih =>
    intro mk hmk hty htr hu hconf urls
    rename_i c t2 l
    obtain ⟨ty, attrs, marks, tx, content⟩ := t2
    rw [ADFNode.contentOf] at hc
    subst hc
    rw [extractConfluenceUrls.eq_def]
    dsimp only
    exact mem_collectList_of_child base l c hm u
      (fun urls2 => ih mk hmk hty htr hu hconf urls2) _

theorem enrichAdfList_eq_map (links : List (String × EnrichedLinkData)) :
    ∀ l : List ADFNode,
      enrichAdfList links l = l.map (enrichAdfWithLinkData links) := by
  intro l
  induction l with
  | nil => rw [enrichAdfList.eq_def]; rfl
  | cons n rest ih =>
    rw [enrichAdfList.eq_def]
    dsimp only
    rw [ih]
    rfl

theorem enrichAdf_node_none (links : List (String × EnrichedLinkData))
    (ty : String) (attrs : List (String × String)) (marks : List ADFMark)
    (tx : Option String) :
    enrichAdfWithLinkData links (.node ty attrs marks tx none) =
      .node ty (enrichCardAttrs links ty attrs)
        (marks.map (enrichMarkWithLinkData links)) tx none := by
  rw [enrichAdfWithLinkData.eq_def]

theorem enrichAdf_node_some (links : List (String × EnrichedLinkData))
    (ty : String) (attrs : List (String × String)) (marks : List ADFMark)
    (tx : Option String) (l : List ADFNode) :
    enrichAdfWithLinkData links (.node ty attrs marks tx (some l)) =
      .node ty (enrichCardAttrs links ty attrs)
        (marks.map (enrichMarkWithLinkData links)) tx
        (some (l.map (enrichAdfWithLinkData links))) := by
  rw [enrichAdfWithLinkData.eq_def]
  dsimp only
  rw [enrichAdfList_eq_map]

theorem enrichAdf_preserves_subnode (links : List (String × EnrichedLinkData)) :
    ∀ {n t : ADFNode}, Subnode n t →
      Subnode (enrichAdfWithLinkData links n) (enrichAdfWithLinkData links t) := by
  intro n t hsub
  induction hsub with
  | refl => exact Subnode.refl _
  | step hc hm hsub2 ih =>
    rename_i c t2 l
    obtain ⟨ty, attrs, marks, tx, content⟩ := t2
    rw [ADFNode.contentOf] at hc
    subst hc
    refine Subnode.step (l := l.map (enrichAdfWithLinkData links)) ?_ ?_ ih
    · rw [enrichAdf_node_some]
      rfl
    · exact List.mem_map_of_mem _ hm

theorem enrichCardAttrs_lookup (links : List (String × EnrichedLinkData))
    (ty : String) (attrs : List (String × String)) (u : String)
    (e : EnrichedLinkData)
    (hty : ty = "inlineCard") (htr : truthyS (lookupKV attrs "url") = true)
    (hu : (lookupKV attrs "url").getD "" = u)
    (hl : lookupKV links u = some e) :
    lookupKV (enrichCardAttrs links ty attrs) "title" = some e.title ∧
    lookupKV (enrichCardAttrs links ty attrs) "pageId" = some e.pageId := by
  unfold enrichCardAttrs
  rw [if_pos ⟨hty, htr⟩, hu, hl]
  constructor
  · rw [lookupKV_upsertKV_ne _ "pageId" "title" _ (by decide)]
    exact lookupKV_upsertKV_self _ _ _
  · exact lookupKV_upsertKV_self _ _ _

theorem enrichMark_lookup (links : List (String × EnrichedLinkData))
    (mk : ADFMark) (u : String) (e : EnrichedLinkData)
    (hty : mk.type = "link") (htr : truthyS (lookupKV mk.attrs "href") = true)
    (hu : (lookupKV mk.attrs "href").getD "" = u)
    (hl : lookupKV links u = some e) :
    lookupKV (enrichMarkWithLinkData links mk).attrs "title" = some e.title ∧
    lookupKV (enrichMarkWithLinkData links mk).attrs "pageId" =
      some e.pageId := by
  unfold enrichMarkWithLinkData
  rw [if_pos ⟨hty, htr⟩, hu, hl]
  constructor
  · rw [lookupKV_upsertKV_ne _ "pageId" "title" _ (by decide)]
    exact lookupKV_upsertKV_self _ _ _
  · exact lookupKV_upsertKV_self _ _ _

theorem enrichCardAttrs_of_none (links : List (String × EnrichedLinkData))
    (ty : String) (attrs : List (String × String))
    (h : ∀ u ∈ (if ty = "inlineCard" ∧ truthyS (lookupKV attrs "url") = true
        then [(lookupKV attrs "url").getD ""] else []),
      lookupKV links u = none) :
    enrichCardAttrs links ty attrs = attrs := by
  unfold enrichCardAttrs
  split
  · rename_i hcond
    rw [h ((lookupKV attrs "url").getD "") (by rw [if_pos hcond]; simp)]
  · rfl

theorem enrichMark_of_none (links : List (String × EnrichedLinkData))
    (mk : ADFMark)
    (h : ∀ u, mk.type = "link" → truthyS (lookupKV mk.attrs "href") = true →
      (lookupKV mk.attrs "href").getD "" = u → lookupKV links u = none) :
    enrichMarkWithLinkData links mk = mk := by
  unfold enrichMarkWithLinkData
  split
  · rename_i hcond
    rw [h ((lookupKV mk.attrs "href").getD "") hcond.1 hcond.2 rfl]
  · rfl

theorem enrichMarks_of_none (links : List (String × EnrichedLinkData))
    (marks : List ADFMark)
    (h : ∀ mk ∈ marks, ∀ u, mk.type = "link" →
      truthyS (lookupKV mk.attrs "href") = true →
      (lookupKV mk.attrs "href").getD "" = u → lookupKV links u = none) :
    marks.map (enrichMarkWithLinkData links) = marks := by
  induction marks with
  | nil => rfl
  | cons mk rest ih =>
    rw [List.map_cons]
    rw [enrichMark_of_none links mk (h mk (List.mem_cons_self _ _))]
    rw [ih (fun mk2 h2 => h mk2 (List.mem_cons_of_mem _ h2))]

theorem nodeUrls_node (ty : String) (attrs : List (String × String))
    (marks : List ADFMark) (tx : Option String)
    (content : Option (List ADFNode)) :
    nodeUrls (.node ty attrs marks tx content) =
      ownUrlKeys (.node ty attrs marks tx content) ++
        (match content with
         | none => []
         | some l => nodeUrlsList l) := by
  rw [nodeUrls.eq_def]

theorem nodeUrlsList_mem (l : List ADFNode) (x : ADFNode) (hx : x ∈ l)
    (u : String) (hu : u ∈ nodeUrls x) : u ∈ nodeUrlsList l := by
  induction l with
  | nil => cases hx
  | cons y ys ih =>
    rw [nodeUrlsList]
    cases hx with
    | head => exact List.mem_append.2 (Or.inl hu)
    | tail _ hmem => exact List.mem_append.2 (Or.inr (ih hmem))

theorem enrichAdf_frame (links : List (String × EnrichedLinkData)) :
    ∀ n : ADFNode, (∀ u ∈ nodeUrls n, lookupKV links u = none) →
      enrichAdfWithLinkData links n = n := by
  intro n
  induction n using adfInd with
  | step ty attrs marks tx content ih =>
    intro h
    have hown : ∀ u ∈ ownUrlKeys (.node ty attrs marks tx content),
        lookupKV links u = none := by
      intro u hu
      apply h
      rw [nodeUrls_node]
      exact List.mem_append.2 (Or.inl hu)
    have hcard : enrichCardAttrs links ty attrs = attrs := by
      apply enrichCardAttrs_of_none
      intro u hu
      apply hown
      unfold ownUrlKeys
      rw [ADFNode.typeOf, ADFNode.attrsOf, ADFNode.marksOf]
      exact List.mem_append.2 (Or.inl hu)
    have hmarks : marks.map (enrichMarkWithLinkData links) = marks := by
      apply enrichMarks_of_none
      intro mk hmk u h1 h2 h3
      apply hown
      unfold ownUrlKeys
      rw [ADFNode.typeOf, ADFNode.attrsOf, ADFNode.marksOf]
      refine List.mem_append.2 (Or.inr ?_)
      rw [List.mem_filterMap]
      refine ⟨mk, hmk, ?_⟩
      rw [if_pos ⟨h1, h2⟩, h3]
    cases content with
    | none =>
      rw [enrichAdf_node_none, hcard, hmarks]
    | some l =>
      rw [enrichAdf_node_some, hcard, hmarks]
      have hl : l.map (enrichAdfWithLinkData links) = l := by
        have : ∀ x ∈ l, enrichAdfWithLinkData links x = x := by
          intro x hx
          apply ih l rfl x hx
          intro u hu
          apply h
          rw [nodeUrls_node]
          exact List.mem_append.2 (Or.inr (nodeUrlsList_mem l x hx u hu))
        calc l.map (enrichAdfWithLinkData links) = l.map id := by
              exact List.map_congr_left this
          _ = l := List.map_id l
      rw [hl]

theorem enrichAdf_attrsOf (links : List (String × EnrichedLinkData))
    (n : ADFNode) :
    (enrichAdfWithLinkData links n).attrsOf =
      enrichCardAttrs links n.typeOf n.attrsOf := by
  obtain ⟨ty, attrs, marks, tx, content⟩ := n
  cases content with
  | none => rw [enrichAdf_node_none]; rfl
  | some l => rw [enrichAdf_node_some]; rfl

theorem enrichAdf_marksOf (links : List (String × EnrichedLinkData))
    (n : ADFNode) :
    (enrichAdfWithLinkData links n).marksOf =
      n.marksOf.map (enrichMarkWithLinkData links) := by
  obtain ⟨ty, attrs, marks, tx, content⟩ := n
  cases content with
  | none => rw [enrichAdf_node_none]; rfl
  | some l => rw [enrichAdf_node_some]; rfl

theorem count_eq_one_of_nodup_mem {l : List String} {a : String}
    (hn : l.Nodup) (hm : a ∈ l) : l.count a = 1 := by
  have h1 : l.count a ≤ 1 := List.nodup_iff_count_le_one.1 hn a
  have h2 : 0 < l.count a := List.count_pos_iff.2 hm
  omega

/-- C3 (confirmed): if several card/link nodes carry in-scope URLs that all
resolve to the same target identifier, link enrichment issues exactly one
metadata fetch for that identifier (the fetched-id list counts it once), and
— when that fetch succeeds with a title — every such node in the output tree
is annotated with that same title and that same target id. -/
theorem c3_one_fetch_per_target (t : ADFNode) (base : String)
    (fetch : String → Option String) (i ttl u : String) (n : ADFNode)
    (hf : fetch i = some ttl)
    (hn : Subnode n t)
    (hconf : isConfluenceUrl u base = true)
    (hex : extractPageIdFromUrl u = some i)
    (hcase : (n.typeOf = "inlineCard" ∧
        truthyS (lookupKV n.attrsOf "url") = true ∧
        (lookupKV n.attrsOf "url").getD "" = u) ∨
      (∃ mk ∈ n.marksOf, mk.type = "link" ∧
        truthyS (lookupKV mk.attrs "href") = true ∧
        (lookupKV mk.attrs "href").getD "" = u)) :
    (fetchedPageIds (extractConfluenceUrls base t [])).count i = 1 ∧
    lookupKV (processADFWithLinks t base fetch).2 u = some ⟨i, ttl, u⟩ ∧
    Subnode (enrichAdfWithLinkData (processADFWithLinks t base fetch).2 n)
      (processADFWithLinks t base fetch).1 ∧
    ((n.typeOf = "inlineCard" ∧ truthyS (lookupKV n.attrsOf "url") = true ∧
        (lookupKV n.attrsOf "url").getD "" = u) →
      lookupKV (enrichAdfWithLinkData (processADFWithLinks t base fetch).2
        n).attrsOf "title" = some ttl ∧
      lookupKV (enrichAdfWithLinkData (processADFWithLinks t base fetch).2
        n).attrsOf "pageId" = some i) ∧
    (∀ mk ∈ n.marksOf, mk.type = "link" →
      truthyS (lookupKV mk.attrs "href") = true →
      (lookupKV mk.attrs "href").getD "" = u →
      enrichMarkWithLinkData (processADFWithLinks t base fetch).2 mk ∈
        (enrichAdfWithLinkData (processADFWithLinks t base fetch).2
          n).marksOf ∧
      lookupKV (enrichMarkWithLinkData (processADFWithLinks t base fetch).2
        mk).attrs "title" = some ttl ∧
      lookupKV (enrichMarkWithLinkData (processADFWithLinks t base fetch).2
        mk).attrs "pageId" = some i) := by
  have humem : u ∈ extractConfluenceUrls base t [] := by
    rcases hcase with ⟨h1, h2, h3⟩ | ⟨mk, hmk, h1, h2, h3⟩
    · exact collect_complete_card base u hn h1 h2 h3 hconf []
    · exact collect_complete_mark base u hn mk hmk h1 h2 h3 hconf []
  have hlinks : (processADFWithLinks t base fetch).2 =
      linksMapOf (fetchPageTitles (extractConfluenceUrls base t []) fetch) :=
    rfl
  have hadf : (processADFWithLinks t base fetch).1 =
      enrichAdfWithLinkData
        (linksMapOf (fetchPageTitles (extractConfluenceUrls base t []) fetch))
        t := rfl
  have hlookup : lookupKV (processADFWithLinks t base fetch).2 u =
      some ⟨i, ttl, u⟩ := by
    rw [hlinks]
    exact lookupKV_linksMapOf_eq _ fetch u i ttl humem hex hf
  refine ⟨?_, hlookup, ?_, ?_, ?_⟩
  · exact count_eq_one_of_nodup_mem (pageIdMapOf_keys_nodup _)
      (mem_pageIdMapOf_keys _ u i humem hex)
  · rw [hadf, hlinks]
    exact enrichAdf_preserves_subnode _ hn
  · rintro ⟨h1, h2, h3⟩
    rw [enrichAdf_attrsOf]
    exact enrichCardAttrs_lookup _ n.typeOf n.attrsOf u ⟨i, ttl, u⟩
      h1 h2 h3 hlookup
  · intro mk hmk h1 h2 h3
    refine ⟨?_, ?_⟩
    · rw [enrichAdf_marksOf]
      exact List.mem_map_of_mem _ hmk
    · exact enrichMark_lookup _ mk u ⟨i, ttl, u⟩ h1 h2 h3 hlookup

/-- C3 witness: the spec scenario — two link nodes at
`https://svc/pages/42/Title` and `https://svc/pages/42` — issues exactly one
fetch for id `42` and both URLs map to the same enriched record. -/
theorem c3_witness :
    (fetchedPageIds (extractConfluenceUrls "https://svc" c3Tree [])).count
      "42" = 1 ∧
    lookupKV (processADFWithLinks c3Tree "https://svc" c3Fetch).2
      "https://svc/pages/42/Title" =
      some ⟨"42", "T42", "https://svc/pages/42/Title"⟩ ∧
    lookupKV (processADFWithLinks c3Tree "https://svc" c3Fetch).2
      "https://svc/pages/42" = some ⟨"42", "T42", "https://svc/pages/42"⟩ := by
  have h1 := c3_one_fetch_per_target c3Tree "https://svc" c3Fetch "42" "T42"
    "https://svc/pages/42/Title" (cardNode "https://svc/pages/42/Title") rfl
    (Subnode.step rfl (List.mem_cons_self _ _) (Subnode.refl _)) rfl rfl
    (Or.inl ⟨rfl, rfl, rfl⟩)
  have h2 := c3_one_fetch_per_target c3Tree "https://svc" c3Fetch "42" "T42"
    "https://svc/pages/42" (linkTextNode "https://svc/pages/42") rfl
    (Subnode.step rfl (by simp) (Subnode.refl _)) rfl rfl
    (Or.inr ⟨⟨"link", [("href", "https://svc/pages/42")]⟩, by simp [linkTextNode,
      ADFNode.marksOf], rfl, rfl, rfl⟩)
  exact ⟨h1.1, h1.2.1, h2.2.1⟩

/-- C4 (confirmed): when the metadata fetch for one target fails, no URL
resolving to that target receives an enriched link record; every other
target's URLs that were collected still receive their record; and any node
all of whose consulted URLs resolve to the failed target is returned
unchanged by the annotation pass. -/
theorem c4_fetch_failure_isolated (t : ADFNode) (base : String)
    (fetch : String → Option String) (i : String) (hf : fetch i = none) :
    (∀ u, extractPageIdFromUrl u = some i →
      lookupKV (processADFWithLinks t base fetch).2 u = none) ∧
    (∀ u j ttl, u ∈ extractConfluenceUrls base t [] →
      extractPageIdFromUrl u = some j → fetch j = some ttl →
      lookupKV (processADFWithLinks t base fetch).2 u =
        some ⟨j, ttl, u⟩) ∧
    (∀ n : ADFNode, (∀ u ∈ nodeUrls n, extractPageIdFromUrl u = some i) →
      enrichAdfWithLinkData (processADFWithLinks t base fetch).2 n = n) := by
  have hnone : ∀ u, extractPageIdFromUrl u = some i →
      lookupKV (processADFWithLinks t base fetch).2 u = none := by
    intro u he
    exact lookupKV_linksMapOf_none _ fetch u i he hf
  refine ⟨hnone, ?_, ?_⟩
  · intro u j ttl humem he hfj
    exact lookupKV_linksMapOf_eq _ fetch u j ttl humem he hfj
  · intro n hall
    exact enrichAdf_frame _ n (fun u hu => hnone u (hall u hu))

/-- C4 witness: with targets `42` (fetch succeeds) and `99` (fetch fails) in
one tree, `99`'s URL gets no record and its node is unchanged, while `42`'s
URL is still enriched. -/
theorem c4_witness :
    lookupKV (processADFWithLinks c4Tree "https://svc" c4Fetch).2
      "https://svc/pages/99" = none ∧
    lookupKV (processADFWithLinks c4Tree "https://svc" c4Fetch).2
      "https://svc/pages/42/Title" =
      some ⟨"42", "T42", "https://svc/pages/42/Title"⟩ ∧
    enrichAdfWithLinkData (processADFWithLinks c4Tree "https://svc" c4Fetch).2
      (linkTextNode "https://svc/pages/99") =
      linkTextNode "https://svc/pages/99" := by
  have h := c4_fetch_failure_isolated c4Tree "https://svc" c4Fetch "99" rfl
  refine ⟨h.1 _ rfl, h.2.1 _ "42" "T42" (by decide) rfl rfl, ?_⟩
  exact h.2.2 (linkTextNode "https://svc/pages/99") (by decide)

theorem takeWhile_all_true (p : Char → Bool) (l : List Char)
    (h : ∀ c ∈ l, p c = true) : l.takeWhile p = l := by
  induction l with
  | nil => rfl
  | cons x t ih =>
    rw [List.takeWhile_cons, if_pos (h x (List.mem_cons_self _ _))]
    rw [ih (fun c hc => h c (List.mem_cons_of_mem _ hc))]

theorem dropWhile_all_true (p : Char → Bool) (l : List Char)
    (h : ∀ c ∈ l, p c = true) : l.dropWhile p = [] := by
  induction l with
  | nil => rfl
  | cons x t ih =>
    rw [List.dropWhile_cons, if_pos (h x (List.mem_cons_self _ _))]
    exact ih (fun c hc => h c (List.mem_cons_of_mem _ hc))

theorem takeWhile_append_stop (p : Char → Bool) (l1 l2 : List Char)
    (h : (l1.takeWhile p).length < l1.length) :
    (l1 ++ l2).takeWhile p = l1.takeWhile p := by
  induction l1 with
  | nil => simp at h
  | cons x t ih =>
    rw [List.cons_append, List.takeWhile_cons, List.takeWhile_cons]
    by_cases hx : p x = true
    · rw [if_pos hx, if_pos hx]
      rw [List.takeWhile_cons, if_pos hx] at h
      simp only [List.length_cons] at h
      rw [ih (by omega)]
    · rw [if_neg hx, if_neg hx]

theorem jsDigit_ne_char (c d : Char) (hc : jsDigit c = true)
    (hd : jsDigit d = false) : ¬ c = d := by
  intro hh
  subst hh
  rw [hc] at hd
  cases hd

theorem hasScheme_append (s t : String) (h : hasScheme s = true) :
    hasScheme (s ++ t) = true := by
  unfold hasScheme at h ⊢
  rw [Bool.and_eq_true] at h ⊢
  obtain ⟨h1, h2⟩ := h
  rw [decide_eq_true_iff] at h1
  have hpre : (s.data ++ t.data).takeWhile (fun c => !(c == ':')) =
      s.data.takeWhile (fun c => !(c == ':')) :=
    takeWhile_append_stop _ s.data t.data h1
  constructor
  · rw [String.data_append, hpre, decide_eq_true_iff]
    rw [List.length_append]
    omega
  · rw [String.data_append, hpre]
    exact h2

theorem afterChar_append_not_mem (c : Char) (l1 l2 : List Char)
    (h : c ∉ l1) : afterChar c (l1 ++ l2) = afterChar c l2 := by
  induction l1 with
  | nil => rfl
  | cons x t ih =>
    rw [List.cons_append, afterChar]
    rw [if_neg (by
      intro hx
      exact h (by rw [beq_iff_eq] at hx; rw [hx]; exact List.mem_cons_self _ _))]
    exact ih (fun hx => h (List.mem_cons_of_mem _ hx))

theorem splitOnChar_no_sep (c : Char) (l : List Char) (h : c ∉ l) :
    splitOnChar c l = [l] := by
  induction l with
  | nil => rfl
  | cons x t ih =>
    rw [splitOnChar]
    rw [if_neg (by
      intro hx
      exact h (by rw [beq_iff_eq] at hx; rw [hx]; exact List.mem_cons_self _ _))]
    rw [ih (fun hx => h (List.mem_cons_of_mem _ hx))]

theorem findParam_pageId (pid : List Char) (hd : pid.all jsDigit = true) :
    findParam ("pageId=".data ++ pid) "pageId" = some (String.mk pid) := by
  have hamp : ('&' : Char) ∉ "pageId=".data ++ pid := by
    intro hmem
    rcases List.mem_append.1 hmem with hmem | hmem
    · simp at hmem
    · rw [List.all_eq_true] at hd
      exact jsDigit_ne_char '&' '&' (hd '&' hmem) (by decide) rfl
  unfold findParam
  rw [splitOnChar_no_sep _ _ hamp]
  rw [List.findSome?_cons]
  have htw : ("pageId=".data ++ pid).takeWhile (fun c => !(c == '=')) =
      "pageId".data := by
    show (('p' :: 'a' :: 'g' :: 'e' :: 'I' :: 'd' :: '=' :: pid).takeWhile
      (fun c => !(c == '='))) = "pageId".data
    simp [List.takeWhile_cons]
  rw [htw]
  rw [if_pos rfl]
  show some (String.mk ((("pageId=".data ++ pid).drop
    ("pageId".data.length)).drop 1)) = some (String.mk pid)
  rfl

theorem jsGetSearchParam_localUrl (lb : String) (pid : List Char)
    (hscheme : hasScheme lb = true)
    (hq : ('?' : Char) ∉ lb.data) (hh : ('#' : Char) ∉ lb.data)
    (hd : pid.all jsDigit = true) :
    jsGetSearchParam (lb ++ "/?pageId=" ++ String.mk pid) "pageId" =
      some (some (String.mk pid)) := by
  have hdata : (lb ++ "/?pageId=" ++ String.mk pid).data =
      lb.data ++ ('/' :: '?' :: ("pageId=".data ++ pid)) := by
    rw [String.data_append, String.data_append]
    rw [List.append_assoc]
    rfl
  have hnofrag : ∀ c ∈ lb.data ++ ('/' :: '?' :: ("pageId=".data ++ pid)),
      (!(c == '#')) = true := by
    intro c hc
    rcases List.mem_append.1 hc with hc | hc
    · simp only [Bool.not_eq_eq_eq_not, Bool.not_true, beq_eq_false_iff_ne]
      intro hce
      subst hce
      exact hh hc
    · rcases hc with _ | ⟨_, hc⟩
      · decide
      rcases hc with _ | ⟨_, hc⟩
      · decide
      rcases List.mem_append.1 hc with hc | hc
      · rcases hc with _ | ⟨_, hc⟩
        · decide
        rcases hc with _ | ⟨_, hc⟩
        · decide
        rcases hc with _ | ⟨_, hc⟩
        · decide
        rcases hc with _ | ⟨_, hc⟩
        · decide
        rcases hc with _ | ⟨_, hc⟩
        · decide
        rcases hc with _ | ⟨_, hc⟩
        · decide
        rcases hc with _ | ⟨_, hc⟩
        · decide
        cases hc
      · rw [List.all_eq_true] at hd
        simp only [Bool.not_eq_eq_eq_not, Bool.not_true, beq_eq_false_iff_ne]
        exact jsDigit_ne_char c '#' (hd c hc) (by decide)
  unfold jsGetSearchParam
  rw [hdata]
  rw [if_pos (hasScheme_append _ _ (hasScheme_append _ _ hscheme))]
  rw [takeWhile_all_true _ _ hnofrag]
  dsimp only
  rw [afterChar_append_not_mem '?' lb.data _ hq]
  have hafter : afterChar '?' ('/' :: '?' :: ("pageId=".data ++ pid)) =
      some ("pageId=".data ++ pid) := by
    simp [afterChar]
  rw [hafter]
  dsimp only
  rw [findParam_pageId pid hd]

theorem startsWithPages_iff (l : List Char) :
    startsWithPages l = true ↔
      ∃ rest, l = '/' :: 'p' :: 'a' :: 'g' :: 'e' :: 's' :: '/' :: rest := by
  constructor
  · intro h
    unfold startsWithPages at h
    split at h
    · rename_i a b c d e f g tail
      simp only [Bool.and_eq_true, beq_iff_eq] at h
      obtain ⟨⟨⟨⟨⟨⟨h1, h2⟩, h3⟩, h4⟩, h5⟩, h6⟩, h7⟩ := h
      exact ⟨tail, by rw [h1, h2, h3, h4, h5, h6, h7]⟩
    · cases h
  · rintro ⟨rest, rfl⟩
    rfl

theorem p1MatchAt_straddle_none (c : Char) (t zs : List Char)
    (hsw : startsWithPages (c :: t) = false) :
    p1MatchAt (c :: (t ++ '/' :: 'w' :: zs)) = none := by
  simp only [p1MatchAt]
  split
  · rename_i hcon
    obtain ⟨rest, heq⟩ := (startsWithPages_iff _).1 hcon
    rcases t with _ | ⟨t1, _ | ⟨t2, _ | ⟨t3, _ | ⟨t4, _ | ⟨t5, _ | ⟨t6, t7⟩⟩⟩⟩⟩⟩
    · simp at heq
    · simp at heq
    · simp at heq
    · simp at heq
    · simp at heq
    · simp only [List.cons_append, List.nil_append, List.cons.injEq] at heq
      obtain ⟨h1, h2, h3, h4, h5, h6, _, h8⟩ := heq
      subst h1
      subst h2
      subst h3
      subst h4
      subst h5
      subst h6
      simp [jsDigit]
    · simp only [List.cons_append, List.cons.injEq] at heq
      obtain ⟨h1, h2, h3, h4, h5, h6, h7, h8⟩ := heq
      subst h1
      subst h2
      subst h3
      subst h4
      subst h5
      subst h6
      subst h7
      simp [startsWithPages] at hsw
  · rfl

theorem p1First_append_no_pages (xs zs : List Char)
    (hx : hasPagesSub xs = false) :
    p1First (xs ++ '/' :: 'w' :: zs) = p1First ('/' :: 'w' :: zs) := by
  induction xs with
  | nil => rfl
  | cons c t ih =>
    rw [hasPagesSub] at hx
    rw [Bool.or_eq_false_iff] at hx
    rw [List.cons_append, p1First]
    rw [p1MatchAt_straddle_none c t zs hx.1]
    exact ih hx.2

theorem p1First_wiki (pid : List Char) (hne : pid ≠ [])
    (hd : pid.all jsDigit = true) :
    p1First ('/' :: 'w' :: 'i' :: 'k' :: 'i' :: '/' :: 'p' :: 'a' :: 'g' ::
      'e' :: 's' :: '/' :: pid) = some pid := by
  have htw : pid.takeWhile jsDigit = pid :=
    takeWhile_all_true jsDigit pid (fun x hx => (List.all_eq_true.1 hd) x hx)
  have hdw : pid.dropWhile jsDigit = [] :=
    dropWhile_all_true jsDigit pid (fun x hx => (List.all_eq_true.1 hd) x hx)
  simp only [p1First, p1MatchAt, startsWithPages]
  simp only [List.drop_succ_cons, List.drop_zero]
  rw [htw, hdw]
  simp [hne]

theorem extract_reconstructed (cb : String) (pid : List Char)
    (hcb : hasPagesSub cb.data = false) (hne : pid ≠ [])
    (hd : pid.all jsDigit = true) :
    extractPageIdFromUrl (cb ++ "/wiki/pages/" ++ String.mk pid) =
      some (String.mk pid) := by
  have hdata : (cb ++ "/wiki/pages/" ++ String.mk pid).data =
      cb.data ++ '/' :: 'w' :: ('i' :: 'k' :: 'i' :: '/' :: 'p' :: 'a' ::
        'g' :: 'e' :: 's' :: '/' :: pid) := by
    rw [String.data_append, String.data_append]
    rw [List.append_assoc]
    rfl
  unfold extractPageIdFromUrl
  rw [hdata]
  rw [p1First_append_no_pages cb.data _ hcb]
  rw [p1First_wiki pid hne hd]

/-- C6 (corrected): for every URL `u` accepted by `shouldTransform`,
extracting the target identifier from `toConfluenceUrl (toLocalUrl u)`
recovers exactly the identifier extracted from `u`, provided the configured
local base is an absolute URL (it has a scheme) containing no `?` or `#`, and
the configured external base contains no `/pages/` segment. (Without the
last condition the round trip fails — see the counterexample.) -/
theorem c6_amended (t : UrlTransformer) (u : String)
    (hscheme : hasScheme t.localBaseUrl = true)
    (hq : ('?' : Char) ∉ t.localBaseUrl.data)
    (hh : ('#' : Char) ∉ t.localBaseUrl.data)
    (hcb : hasPagesSub t.confluenceBaseUrl.data = false)
    (hs : t.shouldTransform u = true) :
    extractPageIdFromUrl (t.toConfluenceUrl (t.toLocalUrl u)) =
      extractPageIdFromUrl u := by
  have hs2 := hs
  unfold UrlTransformer.shouldTransform at hs2
  rw [Bool.and_eq_true] at hs2
  obtain ⟨hstart, hsome⟩ := hs2
  obtain ⟨pid, hex⟩ := Option.isSome_iff_exists.1 hsome
  obtain ⟨hpne, hpdig⟩ := extractPageIdFromUrl_digits hex
  have hpne2 : pid.data ≠ [] := by
    intro hnil
    apply hpne
    have h1 : pid = String.mk pid.data := rfl
    rw [h1, hnil]
  have hloc : t.toLocalUrl u = t.localBaseUrl ++ "/?pageId=" ++ pid := by
    unfold UrlTransformer.toLocalUrl
    rw [if_pos hs, hex]
    dsimp only
    rw [if_neg hpne]
  have hparam := jsGetSearchParam_localUrl t.localBaseUrl pid.data
    hscheme hq hh hpdig
  have htoConf : t.toConfluenceUrl (t.toLocalUrl u) =
      t.confluenceBaseUrl ++ "/wiki/pages/" ++ pid := by
    rw [hloc]
    unfold UrlTransformer.toConfluenceUrl
    rw [show String.mk pid.data = pid from rfl] at hparam
    rw [hparam]
    dsimp only
    rw [if_neg hpne]
  rw [htoConf, hex]
  exact extract_reconstructed t.confluenceBaseUrl pid.data hcb hpne2 hpdig

/-- C6 witness: the amended round trip evaluated on a real-shaped
configuration and URL — `.../pages/42/My+Page` comes back as target `42`. -/
theorem c6_amended_witness :
    goodCfg.shouldTransform
      "https://x.atlassian.net/wiki/spaces/S/pages/42/My+Page" = true ∧
    extractPageIdFromUrl (goodCfg.toConfluenceUrl (goodCfg.toLocalUrl
      "https://x.atlassian.net/wiki/spaces/S/pages/42/My+Page")) =
      extractPageIdFromUrl
        "https://x.atlassian.net/wiki/spaces/S/pages/42/My+Page" ∧
    extractPageIdFromUrl
      "https://x.atlassian.net/wiki/spaces/S/pages/42/My+Page" = some "42" :=
  ⟨rfl, c6_amended goodCfg _ rfl (by decide) (by decide) rfl rfl, rfl⟩

theorem isPrefixOf_append_self (l x : List Char) :
    l.isPrefixOf (l ++ x) = true := by
  induction l with
  | nil => cases x <;> rfl
  | cons a t ih => simp [List.isPrefixOf, ih]

theorem isPrefixOf_eq_append {l r : List Char} (h : l.isPrefixOf r = true) :
    ∃ r2, r = l ++ r2 := by
  induction l generalizing r with
  | nil => exact ⟨r, rfl⟩
  | cons a t ih =>
    cases r with
    | nil => simp [List.isPrefixOf] at h
    | cons b rb =>
      simp only [List.isPrefixOf, Bool.and_eq_true, beq_iff_eq] at h
      obtain ⟨hab, h2⟩ := h
      obtain ⟨r2, hr⟩ := ih h2
      subst hab
      subst hr
      exact ⟨r2, rfl⟩

theorem takeWhile_append_all (p : Char → Bool) (l1 l2 : List Char)
    (h : ∀ c ∈ l1, p c = true) :
    (l1 ++ l2).takeWhile p = l1 ++ l2.takeWhile p := by
  induction l1 with
  | nil => rfl
  | cons x t ih =>
    rw [List.cons_append, List.takeWhile_cons,
      if_pos (h x (List.mem_cons_self _ _)),
      ih (fun c hc => h c (List.mem_cons_of_mem _ hc)), List.cons_append]

theorem dropWhile_append_all (p : Char → Bool) (l1 l2 : List Char)
    (h : ∀ c ∈ l1, p c = true) :
    (l1 ++ l2).dropWhile p = l2.dropWhile p := by
  induction l1 with
  | nil => rfl
  | cons x t ih =>
    rw [List.cons_append, List.dropWhile_cons,
      if_pos (h x (List.mem_cons_self _ _))]
    exact ih (fun c hc => h c (List.mem_cons_of_mem _ hc))

theorem takeWhile_ne_nil_decomp (p : Char → Bool) {l : List Char}
    (h : l.takeWhile p ≠ []) : ∃ d post, l = d :: post ∧ p d = true := by
  cases l with
  | nil => simp at h
  | cons d post =>
    by_cases hd : p d = true
    · exact ⟨d, post, rfl, hd⟩
    · rw [List.takeWhile_cons, if_neg hd] at h
      exact absurd rfl h

theorem p1MatchAt_of_decomp (ds post : List Char) (hne : ds ≠ [])
    (hd : ds.all jsDigit = true)
    (hterm : post = [] ∨ ∃ p2, post = '/' :: p2) :
    p1MatchAt ("/pages/".data ++ (ds ++ post)) = some ds := by
  have hall : ∀ c ∈ ds, jsDigit c = true := List.all_eq_true.1 hd
  have htake : (ds ++ post).takeWhile jsDigit = ds := by
    rw [takeWhile_append_all jsDigit ds post hall]
    rcases hterm with rfl | ⟨p2, rfl⟩
    · simp
    · rw [List.takeWhile_cons, if_neg (by simp [jsDigit])]
      simp
  have hdrop : (ds ++ post).dropWhile jsDigit = post := by
    rw [dropWhile_append_all jsDigit ds post hall]
    rcases hterm with rfl | ⟨p2, rfl⟩
    · rfl
    · rw [List.dropWhile_cons, if_neg (by simp [jsDigit])]
  show p1MatchAt ('/' :: 'p' :: 'a' :: 'g' :: 'e' :: 's' :: '/' ::
    (ds ++ post)) = some ds
  simp only [p1MatchAt, startsWithPages]
  simp only [List.drop_succ_cons, List.drop_zero]
  rw [htake, hdrop]
  rcases hterm with rfl | ⟨p2, rfl⟩
  · simp [hne]
  · simp [hne]

theorem p1MatchAt_some_decomp {l ds : List Char}
    (h : p1MatchAt l = some ds) :
    ∃ post, l = "/pages/".data ++ (ds ++ post) ∧ ds ≠ [] ∧
      ds.all jsDigit = true ∧ (post = [] ∨ ∃ p2, post = '/' :: p2) := by
  obtain ⟨hne, hall⟩ := p1MatchAt_digits h
  simp only [p1MatchAt] at h
  split at h
  · rename_i hsw
    obtain ⟨rest, hrest⟩ := (startsWithPages_iff l).1 hsw
    subst hrest
    simp only [List.drop_succ_cons, List.drop_zero] at h
    split at h
    · cases h
    · rename_i htw
      have hsplit : rest.takeWhile jsDigit ++ rest.dropWhile jsDigit = rest :=
        List.takeWhile_append_dropWhile jsDigit rest
      split at h
      · rename_i hdw
        cases h
        refine ⟨[], ?_, hne, hall, Or.inl rfl⟩
        have hr : rest = List.takeWhile jsDigit rest ++ [] := by
          nth_rewrite 1 [← hsplit]
          rw [hdw]
        conv_lhs => rw [hr]
        rfl
      · rename_i tail hdw
        cases h
        refine ⟨'/' :: tail, ?_, hne, hall, Or.inr ⟨tail, rfl⟩⟩
        have hr : rest = List.takeWhile jsDigit rest ++ '/' :: tail := by
          nth_rewrite 1 [← hsplit]
          rw [hdw]
        conv_lhs => rw [hr]
        rfl
      · cases h
  · cases h

theorem p1First_ne_none_of (l : List Char) :
    ∀ i, p1MatchAt (l.drop i) ≠ none → p1First l ≠ none := by
  induction l with
  | nil =>
    intro i h
    rw [List.drop_nil] at h
    simp [p1MatchAt, startsWithPages] at h
  | cons c t ih =>
    intro i h hnone
    rw [p1First] at hnone
    cases i with
    | zero =>
      rw [List.drop_zero] at h
      cases hm : p1MatchAt (c :: t) with
      | some ds => rw [hm] at hnone; cases hnone
      | none => exact absurd hm h
    | succ j =>
      rw [List.drop_succ_cons] at h
      cases hm : p1MatchAt (c :: t) with
      | some ds => rw [hm] at hnone; cases hnone
      | none =>
        rw [hm] at hnone
        exact ih j h hnone

theorem p1First_some_decomp {l ds : List Char} (h : p1First l = some ds) :
    ∃ pre post, l = pre ++ "/pages/".data ++ (ds ++ post) ∧ ds ≠ [] ∧
      ds.all jsDigit = true ∧ (post = [] ∨ ∃ p2, post = '/' :: p2) := by
  induction l with
  | nil => cases h
  | cons c t ih =>
    rw [p1First] at h
    cases hm : p1MatchAt (c :: t) with
    | some ds2 =>
      rw [hm] at h
      cases h
      obtain ⟨post, hl, hne, hall, hterm⟩ := p1MatchAt_some_decomp hm
      exact ⟨[], post, hl, hne, hall, hterm⟩
    | none =>
      rw [hm] at h
      obtain ⟨pre, post, hl, hne, hall, hterm⟩ := ih h
      exact ⟨c :: pre, post,
        by rw [List.cons_append, List.cons_append, hl], hne, hall, hterm⟩

theorem p1First_none_iff (l : List Char) :
    p1First l = none ↔
      ¬ ∃ pre ds post, l = pre ++ "/pages/".data ++ (ds ++ post) ∧ ds ≠ [] ∧
        ds.all jsDigit = true ∧ (post = [] ∨ ∃ p2, post = '/' :: p2) := by
  constructor
  · rintro hnone ⟨pre, ds, post, hl, hne, hall, hterm⟩
    subst hl
    refine p1First_ne_none_of _ pre.length ?_ hnone
    rw [List.append_assoc, List.drop_left]
    rw [p1MatchAt_of_decomp ds post hne hall hterm]
    exact Option.some_ne_none ds
  · intro hno
    cases hf : p1First l with
    | none => rfl
    | some ds =>
      obtain ⟨pre, post, hl, hne, hall, hterm⟩ := p1First_some_decomp hf
      exact absurd ⟨pre, ds, post, hl, hne, hall, hterm⟩ hno

theorem paramMatchAt_of_decomp (key : List Char) (c d : Char)
    (post : List Char) (hc : c = '?' ∨ c = '&') (hd : jsDigit d = true) :
    paramMatchAt key (c :: (key ++ d :: post)) ≠ none := by
  have hcond : ((c == '?' || c == '&') && key.isPrefixOf (key ++ d :: post))
      = true := by
    rw [isPrefixOf_append_self]
    rcases hc with rfl | rfl <;> simp
  simp only [paramMatchAt]
  rw [if_pos hcond, List.drop_left, List.takeWhile_cons, if_pos hd]
  simp

theorem paramMatchAt_some_decomp {key l ds : List Char}
    (h : paramMatchAt key l = some ds) :
    ∃ c d post, l = c :: (key ++ d :: post) ∧ (c = '?' ∨ c = '&') ∧
      jsDigit d = true := by
  cases l with
  | nil => cases h
  | cons c rest =>
    simp only [paramMatchAt] at h
    split at h
    · rename_i hcond
      rw [Bool.and_eq_true] at hcond
      obtain ⟨hor, hpre⟩ := hcond
      obtain ⟨rest2, hrest2⟩ := isPrefixOf_eq_append hpre
      subst hrest2
      rw [List.drop_left] at h
      split at h
      · cases h
      · rename_i htw
        obtain ⟨d, post, hdp, hd⟩ := takeWhile_ne_nil_decomp jsDigit htw
        refine ⟨c, d, post, by rw [hdp], ?_, hd⟩
        simp only [Bool.or_eq_true, beq_iff_eq] at hor
        exact hor
    · cases h

theorem paramFirst_ne_none_of (key l : List Char) :
    ∀ i, paramMatchAt key (l.drop i) ≠ none → paramFirst key l ≠ none := by
  induction l with
  | nil =>
    intro i h
    rw [List.drop_nil] at h
    simp [paramMatchAt] at h
  | cons c t ih =>
    intro i h hnone
    rw [paramFirst] at hnone
    cases i with
    | zero =>
      rw [List.drop_zero] at h
      cases hm : paramMatchAt key (c :: t) with
      | some ds => rw [hm] at hnone; cases hnone
      | none => exact absurd hm h
    | succ j =>
      rw [List.drop_succ_cons] at h
      cases hm : paramMatchAt key (c :: t) with
      | some ds => rw [hm] at hnone; cases hnone
      | none =>
        rw [hm] at hnone
        exact ih j h hnone

theorem paramFirst_some_decomp {key l ds : List Char}
    (h : paramFirst key l = some ds) :
    ∃ pre c d post, l = pre ++ c :: (key ++ d :: post) ∧
      (c = '?' ∨ c = '&') ∧ jsDigit d = true := by
  induction l with
  | nil => cases h
  | cons x t ih =>
    rw [paramFirst] at h
    cases hm : paramMatchAt key (x :: t) with
    | some ds2 =>
      rw [hm] at h
      obtain ⟨c, d, post, hl, hc, hd⟩ := paramMatchAt_some_decomp hm
      exact ⟨[], c, d, post, hl, hc, hd⟩
    | none =>
      rw [hm] at h
      obtain ⟨pre, c, d, post, hl, hc, hd⟩ := ih h
      exact ⟨x :: pre, c, d, post, by rw [List.cons_append, hl], hc, hd⟩

theorem paramFirst_none_iff (key l : List Char) :
    paramFirst key l = none ↔
      ¬ ∃ pre c d post, l = pre ++ c :: (key ++ d :: post) ∧
        (c = '?' ∨ c = '&') ∧ jsDigit d = true := by
  constructor
  · rintro hnone ⟨pre, c, d, post, hl, hc, hd⟩
    subst hl
    refine paramFirst_ne_none_of key _ pre.length ?_ hnone
    rw [List.drop_left]
    exact paramMatchAt_of_decomp key c d post hc hd
  · intro hno
    cases hf : paramFirst key l with
    | none => rfl
    | some ds =>
      obtain ⟨pre, c, d, post, hl, hc, hd⟩ := paramFirst_some_decomp hf
      exact absurd ⟨pre, c, d, post, hl, hc, hd⟩ hno

theorem extract_none_iff_first (url : String) :
    extractPageIdFromUrl url = none ↔
      p1First url.data = none ∧
      paramFirst "pageId=".data url.data = none ∧
      paramFirst "homepageId=".data url.data = none := by
  unfold extractPageIdFromUrl
  cases h1 : p1First url.data with
  | some ds => simp [h1]
  | none =>
    cases h2 : paramFirst "pageId=".data url.data with
    | some ds => simp [h2]
    | none =>
      cases h3 : paramFirst "homepageId=".data url.data with
      | some ds => simp [h3]
      | none => simp

/-- C10 counterexample: the URL `https://x.example/view?pageId=12a` has no
`/pages/` segment, its `homepageId` parameter is absent, and its `pageId`
parameter value `12a` contains the non-digit character `a`; the claim as
worded then requires extraction to return `null`, but the code's regex
`[?&]pageId=(\d+)` captures the digit prefix of the value, so extraction
returns `"12"`. -/
theorem c10_counterexample :
    hasPagesSub "https://x.example/view?pageId=12a".data = false ∧
    jsGetSearchParam "https://x.example/view?pageId=12a" "homepageId" =
      some none ∧
    jsGetSearchParam "https://x.example/view?pageId=12a" "pageId" =
      some (some "12a") ∧
    ('a' ∈ "12a".data ∧ jsDigit 'a' = false) ∧
    extractPageIdFromUrl "https://x.example/view?pageId=12a" = some "12" :=
  ⟨rfl, rfl, rfl, ⟨by decide, rfl⟩, rfl⟩

/-- C10 (corrected): target-identifier extraction only ever returns a nonempty
string of decimal digits, and it returns `null` precisely when no position of
the URL matches any of the three patterns: `/pages/` followed by a nonempty
digit run ending at `/` or at the end of the string, or `?`/`&` immediately
followed by `pageId=` resp. `homepageId=` and at least one digit. (A
parameter value merely containing a non-digit does not force `null`: the
regexes capture digit runs, so `pageId=12a` yields `"12"` — see the
counterexample.) When extraction returns `null`, `shouldTransform` is false
for every transformer configuration and `isConfluenceUrl` is false for every
base, so the URL is out of scope for URL transformation and link
enrichment. -/
theorem c10_amended (url : String) :
    (∀ pid, extractPageIdFromUrl url = some pid →
      pid ≠ "" ∧ pid.data.all jsDigit = true) ∧
    (extractPageIdFromUrl url = none ↔
      (¬ ∃ pre ds post, url.data = pre ++ "/pages/".data ++ (ds ++ post) ∧
        ds ≠ [] ∧ ds.all jsDigit = true ∧
        (post = [] ∨ ∃ p2, post = '/' :: p2)) ∧
      (¬ ∃ pre c d post,
        url.data = pre ++ c :: ("pageId=".data ++ d :: post) ∧
        (c = '?' ∨ c = '&') ∧ jsDigit d = true) ∧
      (¬ ∃ pre c d post,
        url.data = pre ++ c :: ("homepageId=".data ++ d :: post) ∧
        (c = '?' ∨ c = '&') ∧ jsDigit d = true)) ∧
    (extractPageIdFromUrl url = none →
      (∀ t : UrlTransformer, t.shouldTransform url = false) ∧
      (∀ base, isConfluenceUrl url base = false)) := by
  refine ⟨fun pid h => extractPageIdFromUrl_digits h, ?_, ?_⟩
  · rw [extract_none_iff_first, p1First_none_iff, paramFirst_none_iff,
      paramFirst_none_iff]
  · intro h
    constructor
    · intro t
      unfold UrlTransformer.shouldTransform
      rw [h]
      simp
    · intro base
      unfold isConfluenceUrl
      rw [h]
      simp

/-- C10 witness: the amended theorem applied at a URL whose `pageId` value is
`12a` shows the extracted digit-run prefix `12` is a nonempty digit string,
and applied at a URL matching none of the three patterns it shows the URL is
out of scope for transformation and enrichment. -/
theorem c10_amended_witness :
    ("12" ≠ "" ∧ "12".data.all jsDigit = true) ∧
    goodCfg.shouldTransform "https://h.example/view" = false ∧
    isConfluenceUrl "https://h.example/view" "https://x.atlassian.net" =
      false :=
  ⟨(c10_amended "https://x.example/view?pageId=12a").1 "12" rfl,
   ((c10_amended "https://h.example/view").2.2 rfl).1 goodCfg,
   ((c10_amended "https://h.example/view").2.2 rfl).2 "https://x.atlassian.net"⟩
